import Mathlib

/-! Merge sort over an array with a scratch buffer (`new.c`)

A shallow embedding of `merge`, `mergeSort` and the printing part of `main`.

* A C array is a `List`; an index is an `Int` (the C code passes `right = -1`
  for an empty input).  The sum `left + right` of line 37 is reduced to a
  32-bit signed `int` that wraps around (`wrapInt32`), and `/` is the
  truncating division `Int.tdiv`: `mid` is `midpoint32 left right`.  The sum is
  exact while it fits in 32 bits (`midpoint32_exact`), which it does in every
  call of a run with `0 <= left` and `right <= 2^30`; with `right` above `2^30`
  it wraps and the call has no result (`mergeSortBy_overflow`).  The other
  index arithmetic, `mid + 1` and the increments of the cursors, stays inside
  32 bits for bounds inside an array and is exact integer arithmetic.
* Every array access goes through `readAt` / `writeAt`, which have no result
  outside `0 .. length - 1`; a function returns `none` as soon as one access
  is out of bounds.
* The element type is a parameter `α` compared through `key : α → Int`; the C
  program is the instance `α = Int`, `key = id`.  The generic form is what lets
  the same algorithm run on (value, original index) pairs.
* Loops are recursive functions on their cursors.  Recursion is structural on
  a `Nat` budget.  Each loop is given the number of iterations that remain,
  which is never too small (`copyLoopFuel_budget`, `copyBackFuel_budget`,
  `mergeLoopFuel_budget`).  `mergeSortBy` gets its recursion depth as an
  explicit argument and returns `none` when the depth is used up; depth
  `right - left` is enough for bounds inside the array with `right <= 2^30`
  (`mergeSortBy_eq`), and more depth does not change a result
  (`mergeSortBy_fuel_mono`).
* `mergeSortTrace` and `mergeByWrites` are `mergeSortBy` and `mergeBy` with a
  log, of the calls made and of the scratch cells written; forgetting the log
  gives back the function (`mergeSortTrace_erase`, `mergeByWrites_erase`).
-/

namespace MergeSortC

variable {α : Type}

/-! ## Array access -/

/-- The value of `a[i]`; no result when `i` is outside `0 .. length - 1`. -/
def readAt (a : List α) (i : Int) : Option α :=
  if 0 ≤ i then a[i.toNat]? else none

/-- The array after `a[i] = v`; no result when `i` is outside `0 .. length - 1`. -/
def writeAt (a : List α) (i : Int) (v : α) : Option (List α) :=
  if 0 ≤ i ∧ i < a.length then some (a.set i.toNat v) else none

/-! ## `merge` (new.c, lines 4-32) -/

/-- The comparing loop, lines 10-16:
`while (leftIndex <= mid && rightIndex <= right)`, one element written to
`temp[mergeIndex++]` per iteration.  Returns the scratch array and the three
cursors at loop exit. -/
def mergeLoopFuel (key : α → Int) (arr : List α) (mid right : Int) :
    Nat → List α → Int → Int → Int → Option (List α × Int × Int × Int)
  | fuel, temp, leftIndex, rightIndex, mergeIndex =>
    if leftIndex ≤ mid ∧ rightIndex ≤ right then
      match fuel with
      | 0 => none
      | fuel1 + 1 => do
        let a ← readAt arr leftIndex
        let b ← readAt arr rightIndex
        if key a ≤ key b then do
          let temp1 ← writeAt temp mergeIndex a
          mergeLoopFuel key arr mid right fuel1 temp1 (leftIndex + 1) rightIndex (mergeIndex + 1)
        else do
          let temp1 ← writeAt temp mergeIndex b
          mergeLoopFuel key arr mid right fuel1 temp1 leftIndex (rightIndex + 1) (mergeIndex + 1)
    else
      some (temp, leftIndex, rightIndex, mergeIndex)

/-- The comparing loop with the number of iterations it can still make:
each iteration advances one of the two read cursors by one. -/
def mergeLoop (key : α → Int) (arr : List α) (mid right : Int)
    (temp : List α) (leftIndex rightIndex mergeIndex : Int) :
    Option (List α × Int × Int × Int) :=
  mergeLoopFuel key arr mid right
    ((mid + 1 - leftIndex).toNat + (right + 1 - rightIndex).toNat)
    temp leftIndex rightIndex mergeIndex

/-- The two copying loops, lines 19-21 and 24-26:
`while (index <= bound) temp[mergeIndex++] = arr[index++];`.
Returns the scratch array and the write cursor at loop exit. -/
def copyLoopFuel (arr : List α) (bound : Int) :
    Nat → List α → Int → Int → Option (List α × Int)
  | fuel, temp, index, mergeIndex =>
    if index ≤ bound then
      match fuel with
      | 0 => none
      | fuel1 + 1 => do
        let a ← readAt arr index
        let temp1 ← writeAt temp mergeIndex a
        copyLoopFuel arr bound fuel1 temp1 (index + 1) (mergeIndex + 1)
    else
      some (temp, mergeIndex)

/-- A copying loop with the number of iterations it can still make. -/
def copyLoop (arr : List α) (bound : Int) (temp : List α) (index mergeIndex : Int) :
    Option (List α × Int) :=
  copyLoopFuel arr bound (bound + 1 - index).toNat temp index mergeIndex

/-- The copy-back loop, lines 29-31:
`for (int i = left; i <= right; i++) arr[i] = temp[i];`. -/
def copyBackFuel (temp : List α) (right : Int) : Nat → List α → Int → Option (List α)
  | fuel, arr, i =>
    if i ≤ right then
      match fuel with
      | 0 => none
      | fuel1 + 1 => do
        let v ← readAt temp i
        let arr1 ← writeAt arr i v
        copyBackFuel temp right fuel1 arr1 (i + 1)
    else
      some arr

/-- The copy-back loop with the number of iterations it can still make. -/
def copyBack (temp : List α) (right : Int) (arr : List α) (i : Int) : Option (List α) :=
  copyBackFuel temp right (right + 1 - i).toNat arr i

/-- The two copying loops in sequence, lines 18-26: first what is left of the
left half, then what is left of the right half.  Returns the scratch array. -/
def copyRemaining (arr : List α) (mid right : Int) (temp : List α)
    (leftIndex rightIndex mergeIndex : Int) : Option (List α) := do
  let (temp2, mergeIndex2) ← copyLoop arr mid temp leftIndex mergeIndex
  let (temp3, _) ← copyLoop arr right temp2 rightIndex mergeIndex2
  pure temp3

/-- The function `merge`, lines 4-32, for elements compared through `key`.
Returns the pair `(arr, temp)` after the call. -/
def mergeBy (key : α → Int) (arr temp : List α) (left mid right : Int) :
    Option (List α × List α) := do
  let (temp1, leftIndex, rightIndex, mergeIndex) ←
    mergeLoop key arr mid right temp left (mid + 1) left
  let temp3 ← copyRemaining arr mid right temp1 leftIndex rightIndex mergeIndex
  let arr1 ← copyBack temp3 right arr left
  pure (arr1, temp3)

/-! ## The midpoint (new.c, line 37) -/

/-- A 32-bit signed `int` after wrap-around: the representative of `x` modulo
`2^32` in the range `-2^31 .. 2^31 - 1`. -/
def wrapInt32 (x : Int) : Int := (x + 2147483648) % 4294967296 - 2147483648

/-- The value of `mid` on line 37 when `int` is 32-bit signed and the sum
`left + right` wraps around modulo `2^32`; `/` is truncating division. -/
def midpoint32 (left right : Int) : Int := Int.tdiv (wrapInt32 (left + right)) 2

/-! ## `mergeSort` (new.c, lines 35-48) -/

/-- The function `mergeSort`, lines 35-48, for elements compared through `key`.
`mid` is computed as on line 37 with 32-bit `int` (`midpoint32`).  `fuel`
bounds the depth of the recursion: a call that has to recurse with no depth left
has no result.  Returns the pair `(arr, temp)` after the call. -/
def mergeSortBy (key : α → Int) : Nat → List α → List α → Int → Int → Option (List α × List α)
  | fuel, arr, temp, left, right =>
    if left < right then
      match fuel with
      | 0 => none
      | fuel1 + 1 => do
        let mid := midpoint32 left right
        let (arr1, temp1) ← mergeSortBy key fuel1 arr temp left mid
        let (arr2, temp2) ← mergeSortBy key fuel1 arr1 temp1 (mid + 1) right
        mergeBy key arr2 temp2 left mid right
    else
      some (arr, temp)

/-- The C function `merge` on `int` arrays. -/
def merge (arr temp : List Int) (left mid right : Int) : Option (List Int × List Int) :=
  mergeBy id arr temp left mid right

/-- The C function `mergeSort` on `int` arrays. -/
def mergeSort (fuel : Nat) (arr temp : List Int) (left right : Int) :
    Option (List Int × List Int) :=
  mergeSortBy id fuel arr temp left right


/-! ## The driver (new.c, lines 61-67) -/

/-- The printing loop, lines 64-66:
`for (int i = 0; i < n; i++) printf("%d ", arr[i]);` over the whole array. -/
def printLoop : List Int → String
  | [] => ""
  | x :: rest => toString x ++ " " ++ printLoop rest

/-- The text `main` writes after reading its input, lines 61-67: the call
`mergeSort(arr, temp, 0, n - 1)` with `n` the length of `arr`, then the header,
the printing loop and a newline.  `temp` is the uninitialised scratch array. -/
def mainOutput (fuel : Nat) (arr temp : List Int) : Option String := do
  let (arr1, _) ← mergeSort fuel arr temp 0 ((arr.length : Int) - 1)
  pure ("Sorted array:\n" ++ printLoop arr1 ++ "\n")

/-! ## The calls made by `mergeSort` -/

/-- A call made while `mergeSort` runs, with the bounds it receives. -/
inductive Call where
  | sort (left right : Int)
  | merge (left mid right : Int)
  deriving DecidableEq

/-- The function `mergeSort`, lines 35-48, returning next to its result the
list of the calls of `mergeSort` and `merge` it made, itself included. -/
def mergeSortTrace (key : α → Int) :
    Nat → List α → List α → Int → Int → Option ((List α × List α) × List Call)
  | fuel, arr, temp, left, right =>
    if left < right then
      match fuel with
      | 0 => none
      | fuel1 + 1 => do
        let mid := midpoint32 left right
        let ((arr1, temp1), calls1) ← mergeSortTrace key fuel1 arr temp left mid
        let ((arr2, temp2), calls2) ← mergeSortTrace key fuel1 arr1 temp1 (mid + 1) right
        let result ← mergeBy key arr2 temp2 left mid right
        pure (result, Call.sort left right :: (calls1 ++ calls2 ++ [Call.merge left mid right]))
    else
      some ((arr, temp), [Call.sort left right])

/-! ## Specification vocabulary -/

/-- The comparison the code makes, `key a <= key b`, as a Boolean relation. -/
def leBy (key : α → Int) (a b : α) : Bool := decide (key a ≤ key b)

/-- The elements `a[left], ..., a[right]` as a list. -/
def slice (a : List α) (left right : Int) : List α :=
  (a.drop left.toNat).take (right + 1 - left).toNat

/-- Every adjacent pair of `a[left .. right]` is in order:
`a[i] <= a[i+1]` for `left <= i < right`, both cells being inside the array. -/
def SortedRange (a : List Int) (left right : Int) : Prop :=
  ∀ i : Int, left ≤ i → i < right →
    ∃ x y, readAt a i = some x ∧ readAt a (i + 1) = some y ∧ x ≤ y

/-- The input with each value paired with its original index. -/
def withIndex (s : List Int) : List (Int × Nat) :=
  s.zip (List.range s.length)

/-- A call receives bounds inside `lo .. hi`: `lo <= left <= right <= hi` for
`mergeSort`, `lo <= left <= mid < right <= hi` for `merge`. -/
def Call.within (lo hi : Int) : Call → Prop
  | Call.sort left right => lo ≤ left ∧ left ≤ right ∧ right ≤ hi
  | Call.merge left mid right => lo ≤ left ∧ left ≤ mid ∧ mid < right ∧ right ≤ hi

/-- The output as the specification words it: the header, the sorted integers
in decimal separated by single spaces, then a newline. -/
def separatedOutput (sorted : List Int) : String :=
  "Sorted array:\n" ++ " ".intercalate (sorted.map toString) ++ "\n"

/-- The reference merge of two lists, as the specification words it: when both
lists are non-empty and the head of the left one is `<=` the head of the right
one, the left head is emitted (ties take from the left), otherwise the right
head; when one list is exhausted the rest of the other follows in order. -/
def referenceMerge : List Int → List Int → List Int
  | [], r => r
  | l, [] => l
  | a :: l, b :: r =>
    if a ≤ b then a :: referenceMerge l (b :: r) else b :: referenceMerge (a :: l) r

/-! ## The writes of `merge` to the scratch array -/

/-- The comparing loop, lines 10-16, returning next to its result the list of
the indices of `temp` it wrote, in the order of the writes. -/
def mergeLoopFuelW (key : α → Int) (arr : List α) (mid right : Int) :
    Nat → List α → Int → Int → Int → Option ((List α × Int × Int × Int) × List Int)
  | fuel, temp, leftIndex, rightIndex, mergeIndex =>
    if leftIndex ≤ mid ∧ rightIndex ≤ right then
      match fuel with
      | 0 => none
      | fuel1 + 1 => do
        let a ← readAt arr leftIndex
        let b ← readAt arr rightIndex
        if key a ≤ key b then do
          let temp1 ← writeAt temp mergeIndex a
          let (state, writes) ←
            mergeLoopFuelW key arr mid right fuel1 temp1 (leftIndex + 1) rightIndex (mergeIndex + 1)
          pure (state, mergeIndex :: writes)
        else do
          let temp1 ← writeAt temp mergeIndex b
          let (state, writes) ←
            mergeLoopFuelW key arr mid right fuel1 temp1 leftIndex (rightIndex + 1) (mergeIndex + 1)
          pure (state, mergeIndex :: writes)
    else
      some ((temp, leftIndex, rightIndex, mergeIndex), [])

/-- A copying loop, lines 19-21 and 24-26, returning next to its result the
list of the indices of `temp` it wrote, in the order of the writes. -/
def copyLoopFuelW (arr : List α) (bound : Int) :
    Nat → List α → Int → Int → Option ((List α × Int) × List Int)
  | fuel, temp, index, mergeIndex =>
    if index ≤ bound then
      match fuel with
      | 0 => none
      | fuel1 + 1 => do
        let a ← readAt arr index
        let temp1 ← writeAt temp mergeIndex a
        let (state, writes) ← copyLoopFuelW arr bound fuel1 temp1 (index + 1) (mergeIndex + 1)
        pure (state, mergeIndex :: writes)
    else
      some ((temp, mergeIndex), [])

/-- The function `merge`, lines 4-32, returning next to its result the list of
the indices of `temp` written by the three loops that precede the copy-back. -/
def mergeByWrites (key : α → Int) (arr temp : List α) (left mid right : Int) :
    Option ((List α × List α) × List Int) := do
  let ((temp1, leftIndex, rightIndex, mergeIndex), writes1) ←
    mergeLoopFuelW key arr mid right
      ((mid + 1 - left).toNat + (right + 1 - (mid + 1)).toNat) temp left (mid + 1) left
  let ((temp2, mergeIndex2), writes2) ←
    copyLoopFuelW arr mid (mid + 1 - leftIndex).toNat temp1 leftIndex mergeIndex
  let ((temp3, _), writes3) ←
    copyLoopFuelW arr right (right + 1 - rightIndex).toNat temp2 rightIndex mergeIndex2
  let arr1 ← copyBack temp3 right arr left
  pure ((arr1, temp3), writes1 ++ writes2 ++ writes3)

/-- The indices `lo, lo + 1, ..., lo + n - 1`, each once, in increasing order. -/
def indexRange (lo : Int) : Nat → List Int
  | 0 => []
  | n + 1 => lo :: indexRange (lo + 1) n

/-! ## The loop budgets are never the reason for `none`

A loop given at least the number of iterations that remain behaves the same
with any larger budget: the `0` case of a loop is only reached with the loop
condition false. -/

theorem copyLoopFuel_budget (arr : List α) (bound : Int) (k : Nat) :
    ∀ (fuel : Nat) (temp : List α) (index mergeIndex : Int),
      (bound + 1 - index).toNat ≤ fuel →
      copyLoopFuel arr bound (fuel + k) temp index mergeIndex
        = copyLoopFuel arr bound fuel temp index mergeIndex := by
  intro fuel
  induction fuel with
  | zero =>
    intro temp index mergeIndex h
    have hc : ¬ index ≤ bound := by omega
    unfold copyLoopFuel
    simp [hc]
  | succ f ih =>
    intro temp index mergeIndex h
    rw [show f + 1 + k = (f + k) + 1 by omega]
    unfold copyLoopFuel
    by_cases hc : index ≤ bound
    · simp only [hc, if_true, Option.bind_eq_bind]
      cases readAt arr index with
      | none => rfl
      | some a =>
        simp only [Option.some_bind]
        cases writeAt temp mergeIndex a with
        | none => rfl
        | some temp1 =>
          simp only [Option.some_bind]
          exact ih temp1 (index + 1) (mergeIndex + 1) (by omega)
    · simp [hc]

theorem copyBackFuel_budget (temp : List α) (right : Int) (k : Nat) :
    ∀ (fuel : Nat) (arr : List α) (i : Int),
      (right + 1 - i).toNat ≤ fuel →
      copyBackFuel temp right (fuel + k) arr i = copyBackFuel temp right fuel arr i := by
  intro fuel
  induction fuel with
  | zero =>
    intro arr i h
    have hc : ¬ i ≤ right := by omega
    unfold copyBackFuel
    simp [hc]
  | succ f ih =>
    intro arr i h
    rw [show f + 1 + k = (f + k) + 1 by omega]
    unfold copyBackFuel
    by_cases hc : i ≤ right
    · simp only [hc, if_true, Option.bind_eq_bind]
      cases readAt temp i with
      | none => rfl
      | some v =>
        simp only [Option.some_bind]
        cases writeAt arr i v with
        | none => rfl
        | some arr1 =>
          simp only [Option.some_bind]
          exact ih arr1 (i + 1) (by omega)
    · simp [hc]

theorem mergeLoopFuel_budget (key : α → Int) (arr : List α) (mid right : Int) (k : Nat) :
    ∀ (fuel : Nat) (temp : List α) (leftIndex rightIndex mergeIndex : Int),
      (mid + 1 - leftIndex).toNat + (right + 1 - rightIndex).toNat ≤ fuel →
      mergeLoopFuel key arr mid right (fuel + k) temp leftIndex rightIndex mergeIndex
        = mergeLoopFuel key arr mid right fuel temp leftIndex rightIndex mergeIndex := by
  intro fuel
  induction fuel with
  | zero =>
    intro temp leftIndex rightIndex mergeIndex h
    have hc : ¬ (leftIndex ≤ mid ∧ rightIndex ≤ right) := by omega
    unfold mergeLoopFuel
    simp [hc]
  | succ f ih =>
    intro temp leftIndex rightIndex mergeIndex h
    rw [show f + 1 + k = (f + k) + 1 by omega]
    unfold mergeLoopFuel
    by_cases hc : leftIndex ≤ mid ∧ rightIndex ≤ right
    · simp only [hc, and_self, if_true, Option.bind_eq_bind]
      cases readAt arr leftIndex with
      | none => rfl
      | some a =>
        simp only [Option.some_bind]
        cases readAt arr rightIndex with
        | none => rfl
        | some b =>
          simp only [Option.some_bind]
          by_cases hab : key a ≤ key b
          · simp only [hab, if_true]
            cases writeAt temp mergeIndex a with
            | none => rfl
            | some temp1 =>
              simp only [Option.some_bind]
              exact ih temp1 (leftIndex + 1) rightIndex (mergeIndex + 1) (by omega)
          · simp only [hab, if_false]
            cases writeAt temp mergeIndex b with
            | none => rfl
            | some temp1 =>
              simp only [Option.some_bind]
              exact ih temp1 leftIndex (rightIndex + 1) (mergeIndex + 1) (by omega)
    · simp [hc]

/-- A result of `mergeSort` obtained within some recursion depth is the result
for every larger depth. -/
theorem mergeSortBy_fuel_mono (key : α → Int) (k : Nat) :
    ∀ (fuel : Nat) (arr temp : List α) (left right : Int) (res : List α × List α),
      mergeSortBy key fuel arr temp left right = some res →
      mergeSortBy key (fuel + k) arr temp left right = some res := by
  intro fuel
  induction fuel with
  | zero =>
    intro arr temp left right res h
    unfold mergeSortBy at h ⊢
    by_cases hlt : left < right
    · simp [hlt] at h
    · simpa [hlt] using h
  | succ f ih =>
    intro arr temp left right res h
    rw [show f + 1 + k = (f + k) + 1 by omega]
    unfold mergeSortBy at h ⊢
    by_cases hlt : left < right
    · simp only [hlt, if_true, Option.bind_eq_bind, Option.bind_eq_some] at h ⊢
      obtain ⟨r1, h1, r2, h2, h3⟩ := h
      exact ⟨r1, ih _ _ _ _ _ h1, r2, ih _ _ _ _ _ h2, h3⟩
    · simpa [hlt] using h

/-! ## Array access at natural-number indices -/

theorem readAt_natCast (a : List α) (i : Nat) : readAt a (i : Int) = a[i]? := by
  simp [readAt]

theorem writeAt_natCast (a : List α) (i : Nat) (v : α) (h : i < a.length) :
    writeAt a (i : Int) v = some (a.set i v) := by
  simp [writeAt, h]

theorem getElem?_of_drop_eq_cons {a : List α} {i : Nat} {x : α} {rest : List α}
    (h : a.drop i = x :: rest) : a[i]? = some x ∧ a.drop (i + 1) = rest := by
  constructor
  · have := List.getElem?_drop a i 0
    rw [h] at this
    simpa using this.symm
  · have : a.drop (i + 1) = (a.drop i).drop 1 := by rw [List.drop_drop, Nat.add_comm]
    rw [this, h]; rfl

theorem take_succ_set (t : List α) (m : Nat) (v : α) (h : m < t.length) :
    (t.set m v).take (m + 1) = t.take m ++ [v] := by
  rw [List.set_eq_take_cons_drop v h, List.take_append_eq_append_take]
  simp [List.take_take, Nat.min_eq_left (Nat.le_of_lt h)]

/-- Writing `x` at `m` and then a block `X` right after it is writing `x :: X` at `m`. -/
theorem set_then_block (t : List α) (m : Nat) (x : α) (X : List α) (h : m < t.length) :
    (t.set m x).take (m + 1) ++ X ++ (t.set m x).drop (m + 1 + X.length)
      = t.take m ++ x :: X ++ t.drop (m + (X.length + 1)) := by
  rw [take_succ_set t m x h, List.drop_set_of_lt x t (by omega)]
  have : m + 1 + X.length = m + (X.length + 1) := by omega
  rw [this]
  simp

/-! ## The loops of `merge` -/

theorem copyLoopFuel_spec (arr : List α) (bound : Int) (X : List α) :
    ∀ (fuel : Nat) (temp : List α) (index mi : Nat) (rest : List α),
      arr.drop index = X ++ rest → (index : Int) + X.length = bound + 1 →
      X.length ≤ fuel → mi + X.length ≤ temp.length →
      copyLoopFuel arr bound fuel temp index mi
        = some (temp.take mi ++ X ++ temp.drop (mi + X.length), ((mi + X.length : Nat) : Int)) := by
  induction X with
  | nil =>
    intro fuel temp index mi rest _ hb _ _
    have : ¬ ((index : Int) ≤ bound) := by simp at hb; omega
    unfold copyLoopFuel
    simp [this]
  | cons x X ih =>
    intro fuel temp index mi rest hd hb hf ht
    obtain ⟨hx, hd1⟩ := getElem?_of_drop_eq_cons hd
    simp only [List.length_cons] at hb hf ht
    have hc : (index : Int) ≤ bound := by push_cast at hb; omega
    obtain ⟨f, rfl⟩ : ∃ f, fuel = f + 1 := ⟨fuel - 1, by omega⟩
    have hm : mi < temp.length := by omega
    unfold copyLoopFuel
    simp only [hc, if_true, readAt_natCast, hx, Option.bind_eq_bind, Option.some_bind,
      writeAt_natCast _ _ _ hm]
    have e1 : ((index : Int) + 1) = ((index + 1 : Nat) : Int) := by push_cast; rfl
    have e2 : ((mi : Int) + 1) = ((mi + 1 : Nat) : Int) := by push_cast; rfl
    rw [e1, e2, ih f (temp.set mi x) (index + 1) (mi + 1) rest hd1 (by push_cast; omega) (by omega)
      (by simp; omega)]
    simp only [List.length_cons]
    rw [set_then_block temp mi x X hm]
    congr 2
    omega


theorem copyBackFuel_spec (temp : List α) (right : Int) (X : List α) :
    ∀ (fuel : Nat) (arr : List α) (i : Nat) (rest : List α),
      temp.drop i = X ++ rest → (i : Int) + X.length = right + 1 →
      X.length ≤ fuel → i + X.length ≤ arr.length →
      copyBackFuel temp right fuel arr i
        = some (arr.take i ++ X ++ arr.drop (i + X.length)) := by
  induction X with
  | nil =>
    intro fuel arr i rest _ hb _ _
    have : ¬ ((i : Int) ≤ right) := by simp at hb; omega
    unfold copyBackFuel
    simp [this]
  | cons x X ih =>
    intro fuel arr i rest hd hb hf ht
    obtain ⟨hx, hd1⟩ := getElem?_of_drop_eq_cons hd
    simp only [List.length_cons] at hb hf ht
    have hc : (i : Int) ≤ right := by push_cast at hb; omega
    obtain ⟨f, rfl⟩ : ∃ f, fuel = f + 1 := ⟨fuel - 1, by omega⟩
    have hm : i < arr.length := by omega
    unfold copyBackFuel
    simp only [hc, if_true, readAt_natCast, hx, Option.bind_eq_bind, Option.some_bind,
      writeAt_natCast _ _ _ hm]
    have e1 : ((i : Int) + 1) = ((i + 1 : Nat) : Int) := by push_cast; rfl
    rw [e1, ih f (arr.set i x) (i + 1) rest hd1 (by push_cast; omega) (by omega)
      (by simp; omega)]
    simp only [List.length_cons]
    rw [set_then_block arr i x X hm]

/-- Writing a block `L` at `m` and then a block `R` right after it is writing `L ++ R`. -/
theorem block_then_block (t L R : List α) (m : Nat) (h : m + (L.length + R.length) ≤ t.length) :
    (t.take m ++ L ++ t.drop (m + L.length)).take (m + L.length) ++ R
        ++ (t.take m ++ L ++ t.drop (m + L.length)).drop (m + L.length + R.length)
      = t.take m ++ (L ++ R) ++ t.drop (m + (L.length + R.length)) := by
  have hlen : (t.take m ++ L).length = m + L.length := by
    simp [List.length_take]; omega
  rw [List.take_left' hlen]
  have : m + L.length + R.length = (t.take m ++ L).length + R.length := by rw [hlen]
  rw [this, List.drop_append, List.drop_drop]
  simp [Nat.add_comm, Nat.add_left_comm, Nat.add_assoc]

theorem copyRemaining_spec (arr : List α) (mid right : Int) (L R restL restR temp : List α)
    (li ri mi : Nat)
    (hL : arr.drop li = L ++ restL) (hR : arr.drop ri = R ++ restR)
    (hmid : (li : Int) + L.length = mid + 1) (hright : (ri : Int) + R.length = right + 1)
    (ht : mi + (L.length + R.length) ≤ temp.length) :
    copyRemaining arr mid right temp li ri mi
      = some (temp.take mi ++ (L ++ R) ++ temp.drop (mi + (L.length + R.length))) := by
  unfold copyRemaining copyLoop
  have f1 : (mid + 1 - (li : Int)).toNat = L.length := by omega
  have f2 : (right + 1 - (ri : Int)).toNat = R.length := by omega
  rw [f1, f2, copyLoopFuel_spec arr mid L L.length temp li mi restL hL hmid le_rfl (by omega)]
  simp only [Option.bind_eq_bind, Option.some_bind]
  rw [copyLoopFuel_spec arr right R R.length _ ri (mi + L.length) restR hR hright le_rfl
    (by simp; omega)]
  simp only [Option.some_bind, Option.pure_def, Option.some.injEq]
  exact block_then_block temp L R mi ht

/-- Lines 10-26 of `merge`: the comparing loop followed by the two copying
loops writes the list merge of the two unread parts at the write cursor. -/
theorem mergeLoopFuel_spec (key : α → Int) (arr : List α) (mid right : Int) :
    ∀ (fuel : Nat) (L R restL restR temp : List α) (li ri mi : Nat),
      arr.drop li = L ++ restL → arr.drop ri = R ++ restR →
      (li : Int) + L.length = mid + 1 → (ri : Int) + R.length = right + 1 →
      L.length + R.length ≤ fuel →
      mi + (L.length + R.length) ≤ temp.length →
      ∃ t1 l1 r1 m1,
        mergeLoopFuel key arr mid right fuel temp li ri mi = some (t1, l1, r1, m1) ∧
        copyRemaining arr mid right t1 l1 r1 m1
          = some (temp.take mi ++ List.merge L R (leBy key)
              ++ temp.drop (mi + (L.length + R.length))) := by
  intro fuel
  induction fuel with
  | zero =>
    intro L R restL restR temp li ri mi hL hR hmid hright hf ht
    have hL0 : L = [] := List.length_eq_zero.mp (by omega)
    have hR0 : R = [] := List.length_eq_zero.mp (by omega)
    subst hL0 hR0
    refine ⟨temp, li, ri, mi, ?_, ?_⟩
    · unfold mergeLoopFuel
      have : ¬ ((li : Int) ≤ mid ∧ (ri : Int) ≤ right) := by simp at hmid; omega
      simp [this]
    · rw [copyRemaining_spec arr mid right [] [] restL restR temp li ri mi hL hR hmid hright ht]
      simp
  | succ f ih =>
    intro L R restL restR temp li ri mi hL hR hmid hright hf ht
    match L, R with
    | [], R =>
      refine ⟨temp, li, ri, mi, ?_, ?_⟩
      · unfold mergeLoopFuel
        have : ¬ ((li : Int) ≤ mid ∧ (ri : Int) ≤ right) := by simp at hmid; omega
        simp [this]
      · rw [copyRemaining_spec arr mid right [] R restL restR temp li ri mi hL hR hmid hright ht]
        simp
    | a :: L1, [] =>
      refine ⟨temp, li, ri, mi, ?_, ?_⟩
      · unfold mergeLoopFuel
        have : ¬ ((li : Int) ≤ mid ∧ (ri : Int) ≤ right) := by simp at hright; omega
        simp [this]
      · rw [copyRemaining_spec arr mid right (a :: L1) [] restL restR temp li ri mi hL hR hmid
          hright ht]
        simp
    | a :: L1, b :: R1 =>
      obtain ⟨ha, hL1⟩ := getElem?_of_drop_eq_cons hL
      obtain ⟨hb, hR1⟩ := getElem?_of_drop_eq_cons hR
      simp only [List.length_cons] at hmid hright hf ht
      have hc : (li : Int) ≤ mid ∧ (ri : Int) ≤ right := by push_cast at hmid hright; omega
      have hm : mi < temp.length := by omega
      have e1 : ((li : Int) + 1) = ((li + 1 : Nat) : Int) := by push_cast; rfl
      have e2 : ((ri : Int) + 1) = ((ri + 1 : Nat) : Int) := by push_cast; rfl
      have e3 : ((mi : Int) + 1) = ((mi + 1 : Nat) : Int) := by push_cast; rfl
      unfold mergeLoopFuel
      simp only [hc, and_self, if_true, readAt_natCast, ha, hb, Option.bind_eq_bind,
        Option.some_bind, writeAt_natCast _ _ _ hm]
      by_cases hab : key a ≤ key b
      · simp only [hab, if_true]
        obtain ⟨t1, l1, r1, m1, h1, h2⟩ := ih L1 (b :: R1) restL restR (temp.set mi a)
          (li + 1) ri (mi + 1) hL1 hR (by push_cast; omega) (by simp; omega)
          (by simp; omega) (by simp; omega)
        refine ⟨t1, l1, r1, m1, ?_, ?_⟩
        · rw [e1, e3]; exact h1
        · rw [h2, List.cons_merge_cons_pos (leBy key) L1 R1 (by simp [leBy, hab])]
          have hlen : (List.merge L1 (b :: R1) (leBy key)).length = L1.length + (R1.length + 1) := by
            simp [List.length_merge]
          have := set_then_block temp mi a (List.merge L1 (b :: R1) (leBy key)) hm
          rw [hlen] at this
          simp only [List.length_cons]
          rw [show mi + (L1.length + 1 + (R1.length + 1)) = mi + (L1.length + (R1.length + 1) + 1)
            by omega, ← this]
      · simp only [hab, if_false]
        obtain ⟨t1, l1, r1, m1, h1, h2⟩ := ih (a :: L1) R1 restL restR (temp.set mi b)
          li (ri + 1) (mi + 1) hL hR1 (by simp; omega) (by push_cast; omega)
          (by simp; omega) (by simp; omega)
        refine ⟨t1, l1, r1, m1, ?_, ?_⟩
        · rw [e2, e3]; exact h1
        · rw [h2, List.cons_merge_cons_neg (leBy key) L1 R1 (by simp [leBy, hab])]
          have hlen : (List.merge (a :: L1) R1 (leBy key)).length = L1.length + 1 + R1.length := by
            simp [List.length_merge]
          have := set_then_block temp mi b (List.merge (a :: L1) R1 (leBy key)) hm
          rw [hlen] at this
          simp only [List.length_cons]
          rw [show mi + (L1.length + 1 + (R1.length + 1)) = mi + (L1.length + 1 + R1.length + 1)
            by omega, ← this]

/-- The effect of `merge` on an array cut into the part before `left`, the two
halves and the part after `right`: the halves are replaced by their list merge,
in the array and in the scratch array, and nothing else changes.  No order is
assumed on the halves. -/
theorem mergeBy_segments (key : α → Int) (P L R Q temp : List α) (left mid right : Int)
    (hleft : left = P.length) (hmid : mid + 1 = P.length + L.length)
    (hright : right + 1 = P.length + L.length + R.length)
    (ht : P.length + (L.length + R.length) ≤ temp.length) :
    mergeBy key (P ++ L ++ R ++ Q) temp left mid right
      = some (P ++ List.merge L R (leBy key) ++ Q,
          temp.take P.length ++ List.merge L R (leBy key)
            ++ temp.drop (P.length + (L.length + R.length))) := by
  subst hleft
  have hmid' : mid + 1 = ((P.length + L.length : Nat) : Int) := by push_cast; omega
  have hfuel : (mid + 1 - (P.length : Int)).toNat + (right + 1 - (mid + 1)).toNat
      = L.length + R.length := by omega
  have hdL : (P ++ L ++ R ++ Q).drop P.length = L ++ (R ++ Q) := by
    simp [List.append_assoc]
  have hdR : (P ++ L ++ R ++ Q).drop (P.length + L.length) = R ++ Q := by
    rw [← List.length_append, List.append_assoc (P ++ L), List.drop_left]
  obtain ⟨t1, l1, r1, m1, h1, h2⟩ := mergeLoopFuel_spec key (P ++ L ++ R ++ Q) mid right
    (L.length + R.length) L R (R ++ Q) Q temp P.length (P.length + L.length) P.length
    hdL hdR (by omega) (by push_cast; omega) le_rfl ht
  unfold mergeBy mergeLoop
  rw [hfuel, hmid', h1]
  simp only [Option.bind_eq_bind, Option.some_bind, h2]
  have hX : (List.merge L R (leBy key)).length = L.length + R.length := by
    simp [List.length_merge]
  have hcb := copyBackFuel_spec
    (temp.take P.length ++ List.merge L R (leBy key)
      ++ temp.drop (P.length + (L.length + R.length))) right (List.merge L R (leBy key))
    (L.length + R.length) (P ++ L ++ R ++ Q) P.length
    (temp.drop (P.length + (L.length + R.length)))
    (by
      rw [List.append_assoc]
      exact List.drop_left' (by simp [List.length_take]; omega))
    (by rw [hX]; push_cast; omega) (by rw [hX]) (by rw [hX]; simp)
  unfold copyBack
  have hfuel2 : (right + 1 - (P.length : Int)).toNat = L.length + R.length := by omega
  rw [hfuel2, hcb, hX]
  simp only [Option.some_bind, Option.pure_def, Option.some.injEq, Prod.mk.injEq, and_true]
  have e : P.length + (L.length + R.length) = (P ++ L ++ R).length := by simp
  rw [e, List.drop_left, List.append_assoc (P ++ L), List.append_assoc P L, List.take_left]

/-! ## The midpoint and one step of the recursion -/

theorem tdiv_two_of_nonpos (a : Int) (h : a ≤ 0) : Int.tdiv a 2 = -((-a) / 2) := by
  have h1 := Int.neg_tdiv (-a) 2
  rw [Int.neg_neg] at h1
  rw [h1, Int.tdiv_eq_ediv (by omega) (by decide)]

/-- While the sum `left + right` fits in 32 bits, line 37 computes the floor of
`(left + right) / 2`. -/
theorem midpoint32_exact (left right : Int) (h0 : 0 ≤ left + right)
    (h1 : left + right ≤ 2147483647) : midpoint32 left right = (left + right) / 2 := by
  unfold midpoint32 wrapInt32
  have e : (left + right + 2147483648) % 4294967296 - 2147483648 = left + right := by omega
  rw [e, Int.tdiv_eq_ediv h0 (by decide)]

/-- When the sum `left + right` exceeds `2^31 - 1` it wraps to a negative value
and line 37 computes a negative `mid`. -/
theorem midpoint32_of_overflow (left right : Int) (h1 : 2147483648 ≤ left + right)
    (h2 : left + right ≤ 4294967295) :
    midpoint32 left right = -((4294967296 - (left + right)) / 2) := by
  unfold midpoint32 wrapInt32
  have e : (left + right + 2147483648) % 4294967296 - 2147483648
      = left + right - 4294967296 := by omega
  rw [e, tdiv_two_of_nonpos _ (by omega)]
  congr 2
  omega

/-- For a negative sum that fits in 32 bits the truncating division of line 37
rounds towards zero. -/
theorem midpoint32_of_neg (left right : Int) (h1 : -2147483648 ≤ left + right)
    (h2 : left + right ≤ 0) : midpoint32 left right = -((-(left + right)) / 2) := by
  unfold midpoint32 wrapInt32
  have e : (left + right + 2147483648) % 4294967296 - 2147483648 = left + right := by omega
  rw [e, tdiv_two_of_nonpos _ h2]

/-- One step of the recursion of `mergeSort` on a range of two or more cells,
with `mid` the value `midpoint32 left right`. -/
theorem mergeSortBy_step (key : α → Int) (fuel : Nat) (arr temp : List α) (left right : Int)
    (hlt : left < right) :
    mergeSortBy key (fuel + 1) arr temp left right
      = (mergeSortBy key fuel arr temp left (midpoint32 left right)).bind fun r1 =>
          (mergeSortBy key fuel r1.1 r1.2 (midpoint32 left right + 1) right).bind fun r2 =>
            mergeBy key r2.1 r2.2 left (midpoint32 left right) right := by
  rw [mergeSortBy]
  simp only [hlt, if_true]
  rfl

theorem mergeSortBy_of_not_lt (key : α → Int) (fuel : Nat) (arr temp : List α)
    (left right : Int) (h : right ≤ left) :
    mergeSortBy key fuel arr temp left right = some (arr, temp) := by
  unfold mergeSortBy
  have : ¬ left < right := by omega
  simp [this]

/-! ## The recursion of `mergeSort` -/

theorem mergeSort_split (le : α → α → Bool) (X : List α) (h : 2 ≤ X.length) :
    List.mergeSort X le
      = List.merge (List.mergeSort (X.take ((X.length + 1) / 2)) le)
          (List.mergeSort (X.drop ((X.length + 1) / 2)) le) le := by
  match X, h with
  | a :: b :: xs, _ =>
    rw [List.mergeSort]
    simp only [List.splitInTwo_fst, List.splitInTwo_snd, List.length_cons]

theorem mergeSort_short (le : α → α → Bool) (X : List α) (h : X.length ≤ 1) :
    List.mergeSort X le = X := by
  match X, h with
  | [], _ => simp
  | [a], _ => simp

theorem take_eq_of_le {l1 l2 : List α} {a b : Nat} (h : l1.take b = l2.take b) (hab : a ≤ b) :
    l1.take a = l2.take a := by
  have := congrArg (List.take a) h
  simpa [List.take_take, Nat.min_eq_left hab] using this

theorem drop_eq_of_le {l1 l2 : List α} {a b : Nat} (h : l1.drop a = l2.drop a) (hab : a ≤ b) :
    l1.drop b = l2.drop b := by
  have := congrArg (List.drop (b - a)) h
  simpa [List.drop_drop, Nat.add_sub_cancel' hab] using this

/-- The effect of `mergeSort` on an array cut into the part before `left`, the
range `X` and the part after `right`, for `right <= 2^30` (no sum `left + right`
of the run then exceeds `2^31 - 1`): with recursion depth `fuel ≥ right - left`
the call returns, the range is replaced by `List.mergeSort X`, the rest of the
array is unchanged, and the scratch array is unchanged outside the range. -/
theorem mergeSortBy_segments (key : α → Int) :
    ∀ (fuel : Nat) (P X Q temp : List α) (left right : Int),
      left = P.length → right + 1 = P.length + X.length →
      P.length + X.length ≤ temp.length → X.length ≤ fuel + 1 →
      right ≤ 1073741824 →
      ∃ temp1,
        mergeSortBy key fuel (P ++ X ++ Q) temp left right
          = some (P ++ List.mergeSort X (leBy key) ++ Q, temp1) ∧
        temp1.length = temp.length ∧
        temp1.take P.length = temp.take P.length ∧
        temp1.drop (P.length + X.length) = temp.drop (P.length + X.length) := by
  intro fuel
  induction fuel with
  | zero =>
    intro P X Q temp left right hl hr _ hf _
    have hlt : ¬ left < right := by omega
    refine ⟨temp, ?_, rfl, rfl, rfl⟩
    unfold mergeSortBy
    simp [hlt, mergeSort_short (leBy key) X (by omega)]
  | succ f ih =>
    intro P X Q temp left right hl hr ht hf hb
    by_cases hlt : left < right
    · have hX2 : 2 ≤ X.length := by omega
      have hmid : midpoint32 left right + 1 = ((P.length + (X.length + 1) / 2 : Nat) : Int) := by
        rw [midpoint32_exact left right (by omega) (by omega)]
        push_cast
        omega
      have hX1len : (X.take ((X.length + 1) / 2)).length = (X.length + 1) / 2 := by
        simp [List.length_take]; omega
      have hX2len : (X.drop ((X.length + 1) / 2)).length = X.length - (X.length + 1) / 2 := by
        simp [List.length_drop]
      have harr : P ++ X ++ Q
          = P ++ X.take ((X.length + 1) / 2) ++ (X.drop ((X.length + 1) / 2) ++ Q) := by
        conv_lhs => rw [← List.take_append_drop ((X.length + 1) / 2) X]
        simp only [List.append_assoc]
      obtain ⟨temp1, h1, hl1, ht1, hd1⟩ := ih P (X.take ((X.length + 1) / 2))
        (X.drop ((X.length + 1) / 2) ++ Q) temp left (midpoint32 left right) hl
        (by rw [hmid, hX1len]; push_cast; rfl) (by rw [hX1len]; omega) (by rw [hX1len]; omega)
        (by omega)
      have hS1len : (List.mergeSort (X.take ((X.length + 1) / 2)) (leBy key)).length
          = (X.length + 1) / 2 := by rw [List.length_mergeSort, hX1len]
      have hS2len : (List.mergeSort (X.drop ((X.length + 1) / 2)) (leBy key)).length
          = X.length - (X.length + 1) / 2 := by rw [List.length_mergeSort, hX2len]
      have hPlen : (P ++ List.mergeSort (X.take ((X.length + 1) / 2)) (leBy key)).length
          = P.length + (X.length + 1) / 2 := by rw [List.length_append, hS1len]
      obtain ⟨temp2, h2, hl2, ht2, hd2⟩ := ih
        (P ++ List.mergeSort (X.take ((X.length + 1) / 2)) (leBy key))
        (X.drop ((X.length + 1) / 2)) Q temp1 (midpoint32 left right + 1) right
        (by rw [hmid, hPlen]) (by rw [hPlen, hX2len]; push_cast; omega)
        (by rw [hPlen, hX2len, hl1]; omega) (by rw [hX2len]; omega) hb
      rw [hPlen] at ht2 hd2
      rw [hX2len] at hd2
      have h3 := mergeBy_segments key P
        (List.mergeSort (X.take ((X.length + 1) / 2)) (leBy key))
        (List.mergeSort (X.drop ((X.length + 1) / 2)) (leBy key)) Q temp2
        left (midpoint32 left right) right hl
        (by rw [hmid, hS1len]; push_cast; rfl) (by rw [hS1len, hS2len]; push_cast; omega)
        (by rw [hS1len, hS2len, hl2, hl1]; omega)
      rw [← mergeSort_split (leBy key) X hX2, hS1len, hS2len] at h3
      have hsum : (X.length + 1) / 2 + (X.length - (X.length + 1) / 2) = X.length := by omega
      rw [hsum] at h3
      refine ⟨temp2.take P.length ++ List.mergeSort X (leBy key)
        ++ temp2.drop (P.length + X.length), ?_, ?_, ?_, ?_⟩
      · unfold mergeSortBy
        simp only [hlt, if_true, Option.bind_eq_bind]
        rw [harr, h1]
        simp only [Option.some_bind]
        rw [← List.append_assoc, h2]
        simp only [Option.some_bind]
        exact h3
      · simp [List.length_take, List.length_drop, List.length_mergeSort]
        omega
      · rw [List.append_assoc, List.take_left' (by simp [List.length_take]; omega)]
        exact (take_eq_of_le ht2 (by omega)).trans ht1
      · have e : (temp2.take P.length ++ List.mergeSort X (leBy key)).length
            = P.length + X.length := by
          simp [List.length_take, List.length_mergeSort]; omega
        rw [List.drop_left' e]
        have hd1' := @drop_eq_of_le _ _ _ _ (P.length + X.length) hd1 (by rw [hX1len]; omega)
        have e2 : P.length + (X.length + 1) / 2 + (X.length - (X.length + 1) / 2)
            = P.length + X.length := by omega
        rw [e2] at hd2
        exact hd2.trans hd1'
    · refine ⟨temp, ?_, rfl, rfl, rfl⟩
      unfold mergeSortBy
      simp [hlt, mergeSort_short (leBy key) X (by omega)]

/-! ## From segments to index ranges -/

/-- An array is the part before `left`, the range `left .. right` and the part
after `right`. -/
theorem split_at_range (arr : List α) (left right : Int)
    (h0 : 0 ≤ left) (hlr : left ≤ right + 1) (hr : right < arr.length) :
    arr = arr.take left.toNat ++ slice arr left right ++ arr.drop (right + 1).toNat ∧
    ((arr.take left.toNat).length : Int) = left ∧
    ((slice arr left right).length : Int) = right + 1 - left := by
  have e : (right + 1).toNat = left.toNat + (right + 1 - left).toNat := by omega
  refine ⟨?_, ?_, ?_⟩
  · unfold slice
    rw [e, ← List.drop_drop, List.append_assoc, List.take_append_drop, List.take_append_drop]
  · rw [List.length_take]; omega
  · unfold slice
    rw [List.length_take, List.length_drop]; omega

theorem slice_of_segments (P X Q : List α) (left right : Int)
    (hl : left = P.length) (hr : right + 1 = P.length + X.length) :
    slice (P ++ X ++ Q) left right = X := by
  unfold slice
  have e1 : left.toNat = P.length := by omega
  have e2 : (right + 1 - left).toNat = X.length := by omega
  rw [e1, e2, List.append_assoc, List.drop_left, List.take_left]

theorem readAt_segments_before (P X Q : List α) (j : Int) (h : j < P.length) :
    readAt (P ++ X ++ Q) j = readAt P j := by
  unfold readAt
  by_cases h0 : 0 ≤ j
  · simp only [h0, if_true]
    rw [List.append_assoc, List.getElem?_append_left (by omega)]
  · simp [h0]

theorem readAt_segments_inside (P X Q : List α) (k : Nat) (h : k < X.length) :
    readAt (P ++ X ++ Q) ((P.length : Int) + k) = X[k]? := by
  have e : (P.length : Int) + k = ((P.length + k : Nat) : Int) := by push_cast; rfl
  rw [e, readAt_natCast, List.append_assoc, List.getElem?_append_right (by omega),
    List.getElem?_append_left (by omega)]
  congr 1
  omega

theorem readAt_segments_after (P X Q : List α) (j : Int) (h : (P.length : Int) + X.length ≤ j) :
    readAt (P ++ X ++ Q) j = Q[(j - (P.length + X.length)).toNat]? := by
  unfold readAt
  have h0 : 0 ≤ j := by omega
  simp only [h0, if_true]
  rw [List.getElem?_append_right (by simp; omega)]
  congr 1
  simp; omega

/-- The result of `mergeSort` on an index range inside the array with
`right <= 2^30`, with recursion depth `fuel ≥ right - left`.  The empty range
`right = left - 1` is allowed. -/
theorem mergeSortBy_eq (key : α → Int) (fuel : Nat) (arr temp : List α) (left right : Int)
    (h0 : 0 ≤ left) (hlr : left ≤ right + 1) (hr : right < arr.length)
    (ht : right < temp.length) (hf : right - left ≤ fuel) (hb : right ≤ 1073741824) :
    ∃ temp1,
      mergeSortBy key fuel arr temp left right
        = some (arr.take left.toNat ++ List.mergeSort (slice arr left right) (leBy key)
            ++ arr.drop (right + 1).toNat, temp1) ∧
      temp1.length = temp.length ∧
      temp1.take left.toNat = temp.take left.toNat ∧
      temp1.drop (right + 1).toNat = temp.drop (right + 1).toNat := by
  obtain ⟨harr, hP, hX⟩ := split_at_range arr left right h0 hlr hr
  have hPn : (arr.take left.toNat).length = left.toNat := by omega
  have hXn : (arr.take left.toNat).length + (slice arr left right).length = (right + 1).toNat := by
    omega
  obtain ⟨temp1, h1, h2, h3, h4⟩ := mergeSortBy_segments key fuel (arr.take left.toNat)
    (slice arr left right) (arr.drop (right + 1).toNat) temp left right hP.symm (by omega)
    (by omega) (by omega) hb
  rw [← harr] at h1
  rw [hPn] at h3
  rw [hXn] at h4
  exact ⟨temp1, h1, h2, h3, h4⟩

/-- The result of `merge` on an index range inside the array; no order is
assumed on the two halves. -/
theorem mergeBy_eq (key : α → Int) (arr temp : List α) (left mid right : Int)
    (h0 : 0 ≤ left) (hlm : left ≤ mid) (hmr : mid < right) (hr : right < arr.length)
    (ht : right < temp.length) :
    mergeBy key arr temp left mid right
      = some (arr.take left.toNat
            ++ List.merge (slice arr left mid) (slice arr (mid + 1) right) (leBy key)
            ++ arr.drop (right + 1).toNat,
          temp.take left.toNat
            ++ List.merge (slice arr left mid) (slice arr (mid + 1) right) (leBy key)
            ++ temp.drop (right + 1).toNat) := by
  obtain ⟨harr, hP, hX⟩ := split_at_range arr left right h0 (by omega) hr
  have hcut : slice arr left right = slice arr left mid ++ slice arr (mid + 1) right := by
    unfold slice
    have e1 : (right + 1 - left).toNat = (mid + 1 - left).toNat + (right + 1 - (mid + 1)).toNat := by
      omega
    have e2 : (mid + 1).toNat = left.toNat + (mid + 1 - left).toNat := by omega
    rw [e1, e2, ← List.drop_drop, List.take_add]
  have hL : ((slice arr left mid).length : Int) = mid + 1 - left := by
    unfold slice; rw [List.length_take, List.length_drop]; omega
  have hR : ((slice arr (mid + 1) right).length : Int) = right - mid := by
    unfold slice; rw [List.length_take, List.length_drop]; omega
  have hseg := mergeBy_segments key (arr.take left.toNat) (slice arr left mid)
    (slice arr (mid + 1) right) (arr.drop (right + 1).toNat) temp left mid right
    hP.symm (by omega) (by omega) (by omega)
  rw [hcut, ← List.append_assoc] at harr
  rw [← harr] at hseg
  have e3 : (arr.take left.toNat).length = left.toNat := by omega
  have e4 : (arr.take left.toNat).length
      + ((slice arr left mid).length + (slice arr (mid + 1) right).length) = (right + 1).toNat := by
    omega
  rw [e4, e3] at hseg
  exact hseg

/-! ## Order -/

theorem leBy_trans (key : α → Int) (a b c : α) :
    leBy key a b = true → leBy key b c = true → leBy key a c = true := by
  simp only [leBy, decide_eq_true_eq]
  exact le_trans

theorem leBy_total (key : α → Int) (a b : α) : (leBy key a b || leBy key b a) = true := by
  simp only [leBy, Bool.or_eq_true, decide_eq_true_eq]
  exact le_total _ _

theorem pairwise_leBy_id (l : List Int) :
    l.Pairwise (fun a b => leBy id a b = true) ↔ l.Pairwise (fun a b => a ≤ b) := by
  simp [leBy]

theorem sorted_listMergeSort (key : α → Int) (l : List α) :
    (List.mergeSort l (leBy key)).Pairwise (fun a b => leBy key a b = true) :=
  List.sorted_mergeSort (leBy_trans key) (leBy_total key) l

theorem sortedRange_of_segments (P X Q : List Int) (left right : Int)
    (hl : left = P.length) (hr : right + 1 = P.length + X.length)
    (hX : X.Pairwise (fun a b => a ≤ b)) : SortedRange (P ++ X ++ Q) left right := by
  intro i hli hir
  obtain ⟨k, hk⟩ : ∃ k : Nat, i = (P.length : Int) + k := ⟨(i - P.length).toNat, by omega⟩
  subst hk
  have hk1 : k + 1 < X.length := by omega
  have e : (P.length : Int) + (k : Int) + 1 = (P.length : Int) + ((k + 1 : Nat) : Int) := by
    push_cast; omega
  refine ⟨X[k], X[k + 1], ?_, ?_, ?_⟩
  · rw [readAt_segments_inside P X Q k (by omega)]
    exact List.getElem?_eq_getElem _
  · rw [e, readAt_segments_inside P X Q (k + 1) hk1]
    exact List.getElem?_eq_getElem _
  · exact List.pairwise_iff_getElem.mp hX k (k + 1) (by omega) hk1 (by omega)

theorem readAt_slice (arr : List α) (left right : Int) (k : Nat)
    (h0 : 0 ≤ left) (hlr : left ≤ right + 1) (hr : right < arr.length)
    (hk : k < (slice arr left right).length) :
    readAt arr (left + k) = (slice arr left right)[k]? := by
  obtain ⟨harr, hP, _⟩ := split_at_range arr left right h0 hlr hr
  have := readAt_segments_inside (arr.take left.toNat) (slice arr left right)
    (arr.drop (right + 1).toNat) k hk
  rw [← harr, hP] at this
  exact this

theorem pairwise_of_sortedRange (arr : List Int) (left right : Int)
    (h0 : 0 ≤ left) (hlr : left ≤ right + 1) (hr : right < arr.length)
    (h : SortedRange arr left right) :
    (slice arr left right).Pairwise (fun a b => a ≤ b) := by
  obtain ⟨_, _, hX⟩ := split_at_range arr left right h0 hlr hr
  rw [← List.chain'_iff_pairwise, List.chain'_iff_get]
  intro k hk
  have hk0 : k < (slice arr left right).length := by omega
  have hk1 : k + 1 < (slice arr left right).length := by omega
  obtain ⟨x, y, hx, hy, hxy⟩ := h (left + k) (by omega) (by omega)
  have e : left + (k : Int) + 1 = left + ((k + 1 : Nat) : Int) := by push_cast; omega
  rw [readAt_slice arr left right k h0 hlr hr hk0, List.getElem?_eq_getElem hk0] at hx
  rw [e, readAt_slice arr left right (k + 1) h0 hlr hr hk1, List.getElem?_eq_getElem hk1] at hy
  simp only [Option.some.injEq] at hx hy
  simp only [List.get_eq_getElem]
  rw [hx, hy]
  exact hxy

/-! ## Stability -/

/-- Merging keeps, for every key `k`, the elements of key `k` in the order
"left list first": the tie-break of line 11 takes from the left half. -/
theorem filter_merge (key : α → Int) (k : Int) :
    ∀ (l r : List α), l.Pairwise (fun a b => leBy key a b = true) →
      (List.merge l r (leBy key)).filter (fun x => decide (key x = k))
        = l.filter (fun x => decide (key x = k)) ++ r.filter (fun x => decide (key x = k)) := by
  intro l
  induction l with
  | nil => intro r _; simp
  | cons a l ihl =>
    intro r
    induction r with
    | nil => intro _; simp
    | cons b r ihr =>
      intro hl
      rw [List.cons_merge_cons]
      by_cases hab : leBy key a b = true
      · rw [if_pos hab, List.filter_cons, ihl (b :: r) hl.tail]
        by_cases ha : key a = k
        · simp [ha]
        · simp [ha]
      · rw [if_neg hab, List.filter_cons, ihr hl]
        by_cases hb : key b = k
        · have hnil : (a :: l).filter (fun x => decide (key x = k)) = [] := by
            rw [List.filter_eq_nil_iff]
            intro x hx
            have hax : key a ≤ key x := by
              rcases List.mem_cons.mp hx with rfl | hx
              · exact le_rfl
              · simpa [leBy] using List.rel_of_pairwise_cons hl hx
            simp only [leBy, decide_eq_true_eq, not_le] at hab
            simp only [decide_eq_true_eq]
            omega
          simp [hnil, hb]
        · simp [hb]

theorem filter_listMergeSort (key : α → Int) (k : Int) :
    ∀ (n : Nat) (l : List α), l.length ≤ n →
      (List.mergeSort l (leBy key)).filter (fun x => decide (key x = k))
        = l.filter (fun x => decide (key x = k)) := by
  intro n
  induction n with
  | zero => intro l hl; rw [mergeSort_short _ l (by omega)]
  | succ n ih =>
    intro l hl
    by_cases h2 : 2 ≤ l.length
    · rw [mergeSort_split _ l h2, filter_merge key k _ _ (sorted_listMergeSort key _),
        ih _ (by rw [List.length_take]; omega), ih _ (by rw [List.length_drop]; omega),
        ← List.filter_append, List.take_append_drop]
    · rw [mergeSort_short _ l (by omega)]

theorem withIndex_pairwise (s : List Int) :
    (withIndex s).Pairwise (fun p q => p.2 < q.2) := by
  have h : ((withIndex s).map Prod.snd).Pairwise (fun a b => a < b) := by
    unfold withIndex
    rw [List.map_snd_zip _ _ (by simp)]
    exact List.pairwise_lt_range _
  exact (List.pairwise_map.mp h)

theorem withIndex_values (s : List Int) : (withIndex s).map Prod.fst = s := by
  unfold withIndex
  exact List.map_fst_zip _ _ (by simp)

/-- A stable sort of the indexed input puts equal values in increasing order of
original index. -/
theorem stable_listMergeSort (s : List Int) :
    (List.mergeSort (withIndex s) (leBy Prod.fst)).Pairwise (fun p q => p.1 = q.1 → p.2 < q.2) := by
  rw [List.pairwise_iff_forall_sublist]
  intro p q hpq heq
  have hk : ((List.mergeSort (withIndex s) (leBy Prod.fst)).filter
      (fun x => decide (x.1 = p.1))).Pairwise (fun p q => p.2 < q.2) := by
    rw [filter_listMergeSort Prod.fst p.1 _ _ le_rfl]
    exact (withIndex_pairwise s).sublist (List.filter_sublist _)
  have hsub : List.Sublist [p, q] ((List.mergeSort (withIndex s) (leBy Prod.fst)).filter
      (fun x => decide (x.1 = p.1))) := by
    have := hpq.filter (fun x => decide (x.1 = p.1))
    simpa [heq] using this
  exact List.pairwise_iff_forall_sublist.mp hk hsub

/-! ## The call trace -/

/-- `mergeSortTrace` is `mergeSortBy` with a log: forgetting the log gives the
result of `mergeSortBy`. -/
theorem mergeSortTrace_erase (key : α → Int) :
    ∀ (fuel : Nat) (arr temp : List α) (left right : Int),
      (mergeSortTrace key fuel arr temp left right).map Prod.fst
        = mergeSortBy key fuel arr temp left right := by
  intro fuel
  induction fuel with
  | zero =>
    intro arr temp left right
    unfold mergeSortTrace mergeSortBy
    by_cases h : left < right <;> simp [h]
  | succ f ih =>
    intro arr temp left right
    unfold mergeSortTrace mergeSortBy
    by_cases h : left < right
    · simp only [h, if_true]
      rw [← ih arr temp left (midpoint32 left right)]
      cases h1 : mergeSortTrace key f arr temp left (midpoint32 left right) with
      | none => simp
      | some x =>
        obtain ⟨⟨arr1, temp1⟩, calls1⟩ := x
        simp only [Option.bind_eq_bind, Option.some_bind, Option.map_some']
        rw [← ih arr1 temp1 (midpoint32 left right + 1) right]
        cases h2 : mergeSortTrace key f arr1 temp1 (midpoint32 left right + 1) right with
        | none => simp
        | some y =>
          obtain ⟨⟨arr2, temp2⟩, calls2⟩ := y
          simp only [Option.some_bind, Option.map_some']
          cases mergeBy key arr2 temp2 left (midpoint32 left right) right <;> simp
    · simp [h]

/-- Every call logged by `mergeSortTrace` on bounds `0 <= left <= right <= 2^30`
has its bounds inside `left .. right`. -/
theorem mergeSortTrace_within (key : α → Int) :
    ∀ (fuel : Nat) (arr temp : List α) (left right : Int)
      (res : List α × List α) (calls : List Call),
      0 ≤ left → left ≤ right → right ≤ 1073741824 →
      mergeSortTrace key fuel arr temp left right = some (res, calls) →
      ∀ c ∈ calls, Call.within left right c := by
  intro fuel
  induction fuel with
  | zero =>
    intro arr temp left right res calls h0 hlr hb h
    unfold mergeSortTrace at h
    by_cases hlt : left < right
    · simp [hlt] at h
    · simp only [hlt, if_false, Option.some.injEq, Prod.mk.injEq] at h
      intro c hc
      rw [← h.2] at hc
      simp only [List.mem_singleton] at hc
      subst hc
      exact ⟨le_rfl, hlr, le_rfl⟩
  | succ f ih =>
    intro arr temp left right res calls h0 hlr hb h
    unfold mergeSortTrace at h
    by_cases hlt : left < right
    · have hmid : midpoint32 left right = (left + right) / 2 :=
        midpoint32_exact left right (by omega) (by omega)
      simp only [hlt, if_true, Option.bind_eq_bind, Option.bind_eq_some] at h
      obtain ⟨⟨⟨arr1, temp1⟩, calls1⟩, h1, ⟨⟨arr2, temp2⟩, calls2⟩, h2, r3, h3, h4⟩ := h
      simp only [Option.pure_def, Option.some.injEq, Prod.mk.injEq] at h4
      have w1 := ih arr temp left _ _ calls1 h0 (by omega) (by omega) h1
      have w2 := ih arr1 temp1 _ right _ calls2 (by omega) (by omega) hb h2
      intro c hc
      rw [← h4.2] at hc
      simp only [List.mem_cons, List.mem_append, List.mem_singleton, List.not_mem_nil,
        or_false] at hc
      rcases hc with rfl | (hc | hc) | rfl
      · exact ⟨le_rfl, hlr, le_rfl⟩
      · have := w1 c hc
        cases c with
        | sort l r => exact ⟨this.1, this.2.1, by have := this.2.2; omega⟩
        | merge l m r => exact ⟨this.1, this.2.1, this.2.2.1, by have := this.2.2.2; omega⟩
      · have := w2 c hc
        cases c with
        | sort l r => exact ⟨by have := this.1; omega, this.2.1, this.2.2⟩
        | merge l m r => exact ⟨by have := this.1; omega, this.2.1, this.2.2.1, this.2.2.2⟩
      · exact ⟨le_rfl, by omega, by omega, le_rfl⟩
    · simp only [hlt, if_false, Option.some.injEq, Prod.mk.injEq] at h
      intro c hc
      rw [← h.2] at hc
      simp only [List.mem_singleton] at hc
      subst hc
      exact ⟨le_rfl, hlr, le_rfl⟩

theorem readAt_isSome (a : List α) (i : Int) :
    (readAt a i).isSome = true ↔ 0 ≤ i ∧ i < a.length := by
  unfold readAt
  by_cases h : 0 ≤ i
  · simp only [h, if_true, true_and]
    rw [Option.isSome_iff_exists]
    constructor
    · rintro ⟨x, hx⟩
      have := (List.getElem?_eq_some.mp hx).1
      omega
    · intro hi
      exact ⟨_, List.getElem?_eq_getElem (by omega)⟩
  · simp [h]

theorem writeAt_isSome (a : List α) (i : Int) (v : α) :
    (writeAt a i v).isSome = true ↔ 0 ≤ i ∧ i < a.length := by
  unfold writeAt
  by_cases h : 0 ≤ i ∧ i < a.length <;> simp [h]


/-! ## Where line 37 overflows

The sum `left + right` exceeds `2^31 - 1` as soon as `right > 2^30` and the
range is down to its last two or three cells.  From there on `mid` is
negative, the "right half" starts below `0`, and the recursion never comes
back. -/

/-- A call with `-2^30 <= left < 0` and `left < right` never returns: its first
recursive call is again such a call. -/
theorem mergeSortBy_negative_left (key : α → Int) :
    ∀ (fuel : Nat) (arr temp : List α) (left right : Int),
      -1073741824 ≤ left → left < 0 → left < right → right ≤ 2147483647 →
      mergeSortBy key fuel arr temp left right = none := by
  intro fuel
  induction fuel with
  | zero =>
    intro arr temp left right _ _ hlt _
    unfold mergeSortBy
    simp [hlt]
  | succ f ih =>
    intro arr temp left right h1 h2 hlt h3
    rw [mergeSortBy_step key f arr temp left right hlt]
    have hmid : left < midpoint32 left right ∧ midpoint32 left right ≤ 2147483647 := by
      by_cases hs : 0 ≤ left + right
      · rw [midpoint32_exact left right hs (by omega)]
        omega
      · rw [midpoint32_of_neg left right (by omega) (by omega)]
        omega
    rw [ih arr temp left (midpoint32 left right) h1 h2 hmid.1 hmid.2]
    rfl

/-- A call with `0 <= left < right` and `2^30 < right <= 2^31 - 2` never
returns, whatever the arrays hold: the recursion goes down the right half until
line 37 overflows, and then into negative bounds. -/
theorem mergeSortBy_overflow (key : α → Int) :
    ∀ (fuel : Nat) (arr temp : List α) (left right : Int),
      0 ≤ left → left < right → 1073741824 < right → right ≤ 2147483646 →
      mergeSortBy key fuel arr temp left right = none := by
  intro fuel
  induction fuel with
  | zero =>
    intro arr temp left right _ hlt _ _
    unfold mergeSortBy
    simp [hlt]
  | succ f ih =>
    intro arr temp left right h0 hlt hb hr
    rw [mergeSortBy_step key f arr temp left right hlt]
    by_cases hov : left + right ≤ 2147483647
    · have hm := midpoint32_exact left right (by omega) hov
      cases mergeSortBy key f arr temp left (midpoint32 left right) with
      | none => rfl
      | some r1 =>
        simp only [Option.some_bind]
        rw [ih r1.1 r1.2 (midpoint32 left right + 1) right (by omega) (by omega) hb hr]
        rfl
    · have hm := midpoint32_of_overflow left right (by omega) (by omega)
      rw [mergeSortBy_of_not_lt key f arr temp left (midpoint32 left right) (by omega)]
      simp only [Option.some_bind]
      rw [mergeSortBy_negative_left key f arr temp (midpoint32 left right + 1) right
        (by omega) (by omega) (by omega) (by omega)]
      rfl

/-- The call `mergeSort(arr, temp, left, right)` has no result, whatever the
recursion depth. -/
theorem no_result_of_none (key : α → Int) (arr temp : List α) (left right : Int)
    (h : ∀ fuel : Nat, mergeSortBy key fuel arr temp left right = none) :
    ¬ ∃ (fuel : Nat) (res : List α × List α),
      mergeSortBy key fuel arr temp left right = some res := by
  rintro ⟨fuel, res, hres⟩
  rw [h fuel] at hres
  exact Option.noConfusion hres

/-! ## `mergeSort` below the overflow bound

For `right <= 2^30` no sum `left + right` of a run exceeds `2^31 - 1`, line 37
computes the exact midpoint, and `mergeSort` does what the specification says.
The theorems about the recursion of `mergeSort` carry that bound; those about
the base case and about `merge` need none.  What happens above the bound is the
subject of the last part of the file. -/

/-- Sortedness below the overflow bound.  For every `int` array `arr`, scratch
array `temp` of the same length and bounds `0 <= left <= right <= n - 1` with
`right <= 2^30` (and also for the empty range `right = left - 1`, which is the
driver's call when `n = 0`), the call `mergeSort(arr, temp, left, right)`
returns as soon as the recursion depth is at least `right - left`, and
afterwards `arr[i] <= arr[i+1]` for every `left <= i < right`. For the driver's
bounds `0` and `n - 1` the whole array is in non-decreasing order. -/
theorem mergeSort_sortedRange (fuel : Nat) (arr temp : List Int) (left right : Int)
    (hlen : temp.length = arr.length) (h0 : 0 ≤ left) (hlr : left ≤ right + 1)
    (hr : right < arr.length) (hf : right - left ≤ fuel) (hb : right ≤ 1073741824) :
    ∃ arr1 temp1,
      mergeSort fuel arr temp left right = some (arr1, temp1) ∧
      arr1.length = arr.length ∧
      SortedRange arr1 left right ∧
      (left = 0 → right = (arr.length : Int) - 1 → arr1.Pairwise (fun a b => a ≤ b)) := by
  obtain ⟨temp1, h1, -, -, -⟩ :=
    mergeSortBy_eq id fuel arr temp left right h0 hlr hr (by omega) hf hb
  obtain ⟨harr, hP, hX⟩ := split_at_range arr left right h0 hlr hr
  have hS : (List.mergeSort (slice arr left right) (leBy id)).Pairwise (fun a b => a ≤ b) :=
    (pairwise_leBy_id _).mp (sorted_listMergeSort id _)
  refine ⟨_, temp1, h1, ?_, ?_, ?_⟩
  · conv_rhs => rw [harr]
    simp only [List.length_append, List.length_mergeSort]
  · exact sortedRange_of_segments _ _ _ left right hP.symm
      (by rw [List.length_mergeSort]; omega) hS
  · intro hl0 hrn
    have e1 : left.toNat = 0 := by omega
    have e2 : (right + 1).toNat = arr.length := by omega
    rw [e1, e2]
    simpa using hS

/-- An instance of `mergeSort_sortedRange`: the array `[5, 3, 8, 1, 2]` becomes
`[1, 2, 3, 5, 8]`. -/
theorem mergeSort_sortedRange_witness :
    mergeSort 4 [5, 3, 8, 1, 2] [0, 0, 0, 0, 0] 0 4
      = some ([1, 2, 3, 5, 8], [1, 2, 3, 5, 8]) ∧
    ∃ arr1 temp1,
      mergeSort 4 [5, 3, 8, 1, 2] [0, 0, 0, 0, 0] 0 4 = some (arr1, temp1) ∧
      arr1.length = ([5, 3, 8, 1, 2] : List Int).length ∧
      SortedRange arr1 0 4 ∧
      ((0 : Int) = 0 → (4 : Int) = (([5, 3, 8, 1, 2] : List Int).length : Int) - 1 →
        arr1.Pairwise (fun a b => a ≤ b)) :=
  ⟨by decide!,
    mergeSort_sortedRange 4 [5, 3, 8, 1, 2] [0, 0, 0, 0, 0] 0 4 rfl (by decide) (by decide)
      (by decide) (by decide) (by decide)⟩

/-- Permutation below the overflow bound.  Under the same conditions the values
of `arr[left .. right]` after the call are a permutation of the values there
before the call, and the whole array after the call is a permutation of the
whole array before it. -/
theorem mergeSort_permutation (fuel : Nat) (arr temp : List Int) (left right : Int)
    (hlen : temp.length = arr.length) (h0 : 0 ≤ left) (hlr : left ≤ right + 1)
    (hr : right < arr.length) (hf : right - left ≤ fuel) (hb : right ≤ 1073741824) :
    ∃ arr1 temp1,
      mergeSort fuel arr temp left right = some (arr1, temp1) ∧
      (slice arr1 left right).Perm (slice arr left right) ∧
      arr1.Perm arr := by
  obtain ⟨temp1, h1, -, -, -⟩ :=
    mergeSortBy_eq id fuel arr temp left right h0 hlr hr (by omega) hf hb
  obtain ⟨harr, hP, hX⟩ := split_at_range arr left right h0 hlr hr
  have hperm := List.mergeSort_perm (slice arr left right) (leBy id)
  refine ⟨_, temp1, h1, ?_, ?_⟩
  · rw [slice_of_segments _ _ _ left right hP.symm (by rw [List.length_mergeSort]; omega)]
    exact hperm
  · conv_rhs => rw [harr]
    exact (List.Perm.append_left _ hperm).append_right _

/-- An instance of `mergeSort_permutation`: sorting the range `1 .. 3` of `[9,
7, 4, 6, 1]`. -/
theorem mergeSort_permutation_witness :
    mergeSort 2 [9, 7, 4, 6, 1] [0, 0, 0, 0, 0] 1 3 = some ([9, 4, 6, 7, 1], [0, 4, 6, 7, 0]) ∧
    ∃ arr1 temp1,
      mergeSort 2 [9, 7, 4, 6, 1] [0, 0, 0, 0, 0] 1 3 = some (arr1, temp1) ∧
      (slice arr1 1 3).Perm (slice [9, 7, 4, 6, 1] 1 3) ∧
      arr1.Perm [9, 7, 4, 6, 1] :=
  ⟨by decide,
    mergeSort_permutation 2 [9, 7, 4, 6, 1] [0, 0, 0, 0, 0] 1 3 rfl (by decide) (by decide)
      (by decide) (by decide) (by decide)⟩

/-- Frame on the sequence below the overflow bound.  Under the same conditions
every cell outside the range, `j < left` or `j > right`, holds after the call
what it held before. -/
theorem mergeSort_frame (fuel : Nat) (arr temp : List Int) (left right : Int)
    (hlen : temp.length = arr.length) (h0 : 0 ≤ left) (hlr : left ≤ right + 1)
    (hr : right < arr.length) (hf : right - left ≤ fuel) (hb : right ≤ 1073741824) :
    ∃ arr1 temp1,
      mergeSort fuel arr temp left right = some (arr1, temp1) ∧
      arr1.length = arr.length ∧
      ∀ j : Int, j < left ∨ right < j → readAt arr1 j = readAt arr j := by
  obtain ⟨temp1, h1, -, -, -⟩ :=
    mergeSortBy_eq id fuel arr temp left right h0 hlr hr (by omega) hf hb
  obtain ⟨harr, hP, hX⟩ := split_at_range arr left right h0 hlr hr
  refine ⟨_, temp1, h1, ?_, ?_⟩
  · conv_rhs => rw [harr]
    simp only [List.length_append, List.length_mergeSort]
  · intro j hj
    conv_rhs => rw [harr]
    rcases hj with hj | hj
    · rw [readAt_segments_before _ _ _ j (by omega), readAt_segments_before _ _ _ j (by omega)]
    · rw [readAt_segments_after _ _ _ j (by rw [List.length_mergeSort]; omega),
        readAt_segments_after _ _ _ j (by omega), List.length_mergeSort]

/-- An instance of `mergeSort_frame`: sorting the range `1 .. 3` of `[9, 7, 4,
6, 1]` leaves cells 0 and 4. -/
theorem mergeSort_frame_witness :
    mergeSort 2 [9, 7, 4, 6, 1] [0, 0, 0, 0, 0] 1 3 = some ([9, 4, 6, 7, 1], [0, 4, 6, 7, 0]) ∧
    ∃ arr1 temp1,
      mergeSort 2 [9, 7, 4, 6, 1] [0, 0, 0, 0, 0] 1 3 = some (arr1, temp1) ∧
      arr1.length = ([9, 7, 4, 6, 1] : List Int).length ∧
      ∀ j : Int, j < 1 ∨ 3 < j → readAt arr1 j = readAt [9, 7, 4, 6, 1] j :=
  ⟨by decide,
    mergeSort_frame 2 [9, 7, 4, 6, 1] [0, 0, 0, 0, 0] 1 3 rfl (by decide) (by decide)
      (by decide) (by decide) (by decide)⟩


/-- Idempotence below the overflow bound.  For `n <= 2^30 + 1`, writing
`sort(S)` for the array after the driver's call `mergeSort(arr, temp, 0, n - 1)`
started from `arr = S`: the call returns `sort(S)`, and the same call started
from `sort(S)`, with any scratch array, returns `sort(S)` again. -/
theorem mergeSort_idempotent (fuel fuel2 : Nat) (s temp temp2 : List Int)
    (hlen : temp.length = s.length) (hlen2 : temp2.length = s.length)
    (hf : (s.length : Int) - 1 ≤ fuel) (hf2 : (s.length : Int) - 1 ≤ fuel2)
    (hn : s.length ≤ 1073741825) :
    ∃ s1 t1 t2,
      mergeSort fuel s temp 0 ((s.length : Int) - 1) = some (s1, t1) ∧
      mergeSort fuel2 s1 temp2 0 ((s1.length : Int) - 1) = some (s1, t2) := by
  obtain ⟨t1, h1, -, -, -⟩ := mergeSortBy_eq id fuel s temp 0 ((s.length : Int) - 1)
    le_rfl (by omega) (by omega) (by omega) (by omega) (by omega)
  have hs : slice s 0 ((s.length : Int) - 1) = s := by
    unfold slice
    have e : ((s.length : Int) - 1 + 1 - 0).toNat = s.length := by omega
    rw [e]; simp
  have e0 : ((s.length : Int) - 1 + 1).toNat = s.length := by omega
  rw [hs, e0] at h1
  simp only [Int.toNat_zero, List.take_zero, List.nil_append, List.drop_length,
    List.append_nil] at h1
  have hl1 : (List.mergeSort s (leBy id)).length = s.length := List.length_mergeSort s
  obtain ⟨t2, h2, -, -, -⟩ := mergeSortBy_eq id fuel2 (List.mergeSort s (leBy id)) temp2 0
    (((List.mergeSort s (leBy id)).length : Int) - 1)
    le_rfl (by omega) (by omega) (by omega) (by omega) (by omega)
  have hs2 : slice (List.mergeSort s (leBy id)) 0
      (((List.mergeSort s (leBy id)).length : Int) - 1) = List.mergeSort s (leBy id) := by
    unfold slice
    have e : (((List.mergeSort s (leBy id)).length : Int) - 1 + 1 - 0).toNat
        = (List.mergeSort s (leBy id)).length := by omega
    rw [e]; simp
  have e1 : (((List.mergeSort s (leBy id)).length : Int) - 1 + 1).toNat
      = (List.mergeSort s (leBy id)).length := by omega
  rw [hs2, e1, List.mergeSort_of_sorted (sorted_listMergeSort id s)] at h2
  simp only [Int.toNat_zero, List.take_zero, List.nil_append, List.drop_length,
    List.append_nil] at h2
  exact ⟨_, t1, t2, h1, h2⟩

/-- An instance of `mergeSort_idempotent` on `[5, 3, 8, 1, 2]`. -/
theorem mergeSort_idempotent_witness :
    ∃ s1 t1 t2,
      mergeSort 4 [5, 3, 8, 1, 2] [0, 0, 0, 0, 0] 0
          ((([5, 3, 8, 1, 2] : List Int).length : Int) - 1) = some (s1, t1) ∧
      mergeSort 4 s1 [6, 6, 6, 6, 6] 0 ((s1.length : Int) - 1) = some (s1, t2) :=
  mergeSort_idempotent 4 4 [5, 3, 8, 1, 2] [0, 0, 0, 0, 0] [6, 6, 6, 6, 6] rfl rfl
    (by decide) (by decide) (by decide)

/-- C6 (base case).  When `left >= right` the call returns at once, whatever the
arrays, the bounds and the recursion depth are, and both `arr` and `temp` are
exactly as before: no cell is read or written (an access could fail, the call
cannot). -/
theorem mergeSort_base (fuel : Nat) (arr temp : List Int) (left right : Int)
    (h : right ≤ left) : mergeSort fuel arr temp left right = some (arr, temp) := by
  unfold mergeSort mergeSortBy
  have : ¬ left < right := by omega
  simp [this]

/-- Witness for C6: `[42]` stays `[42]`, the empty array stays empty. -/
theorem mergeSort_base_witness :
    mergeSort 0 [42] [0] 0 0 = some ([42], [0]) ∧ mergeSort 0 [] [] 0 (-1) = some ([], []) :=
  ⟨mergeSort_base 0 [42] [0] 0 0 (by decide), mergeSort_base 0 [] [] 0 (-1) (by decide)⟩

/-- C7 (merge postcondition).  For arrays of the same length and bounds
`0 <= left <= mid < right <= n - 1`, when `arr[left .. mid]` and
`arr[mid+1 .. right]` are each in non-decreasing order, `merge` returns and
afterwards `arr[left .. right]` is in non-decreasing order. -/
theorem merge_sorted (arr temp : List Int) (left mid right : Int)
    (hlen : temp.length = arr.length) (h0 : 0 ≤ left) (hlm : left ≤ mid) (hmr : mid < right)
    (hr : right < arr.length)
    (hL : SortedRange arr left mid) (hR : SortedRange arr (mid + 1) right) :
    ∃ arr1 temp1,
      merge arr temp left mid right = some (arr1, temp1) ∧
      arr1.length = arr.length ∧
      SortedRange arr1 left right := by
  have h1 := mergeBy_eq id arr temp left mid right h0 hlm hmr hr (by omega)
  obtain ⟨harr, hP, hX⟩ := split_at_range arr left right h0 (by omega) hr
  obtain ⟨_, _, hXL⟩ := split_at_range arr left mid h0 (by omega) (by omega)
  obtain ⟨_, _, hXR⟩ := split_at_range arr (mid + 1) right (by omega) (by omega) hr
  have hpL := (pairwise_leBy_id _).mpr
    (pairwise_of_sortedRange arr left mid h0 (by omega) (by omega) hL)
  have hpR := (pairwise_leBy_id _).mpr
    (pairwise_of_sortedRange arr (mid + 1) right (by omega) (by omega) hr hR)
  have hM := (pairwise_leBy_id _).mp
    (List.sorted_merge (leBy_trans id) (leBy_total id) _ _ hpL hpR)
  have hMlen : (List.merge (slice arr left mid) (slice arr (mid + 1) right) (leBy id)).length
      = (slice arr left right).length := by
    rw [List.length_merge]; omega
  refine ⟨_, _, h1, ?_, ?_⟩
  · conv_rhs => rw [harr]
    simp only [List.length_append, hMlen]
  · exact sortedRange_of_segments _ _ _ left right hP.symm (by rw [hMlen]; omega) hM

/-- Witness for C7: merging the sorted halves `[1, 4]` and `[2, 3]`. -/
theorem merge_sorted_witness :
    merge [1, 4, 2, 3] [7, 7, 7, 7] 0 1 3 = some ([1, 2, 3, 4], [1, 2, 3, 4]) ∧
    ∃ arr1 temp1,
      merge [1, 4, 2, 3] [7, 7, 7, 7] 0 1 3 = some (arr1, temp1) ∧
      arr1.length = ([1, 4, 2, 3] : List Int).length ∧
      SortedRange arr1 0 3 :=
  ⟨by decide,
    merge_sorted [1, 4, 2, 3] [7, 7, 7, 7] 0 1 3 rfl (by decide) (by decide) (by decide)
      (by decide)
      (fun i h1 h2 => by
        obtain rfl : i = 0 := by omega
        exact ⟨1, 4, by decide, by decide, by decide⟩)
      (fun i h1 h2 => by
        obtain rfl : i = 2 := by omega
        exact ⟨2, 3, by decide, by decide, by decide⟩)⟩

/-- Independence of `merge` from the scratch array.  For arrays of the same
length, bounds inside the array and every `mid` with `left <= mid < right`,
`merge` started with two different scratch arrays returns the same `arr`,
whether or not the halves are sorted. -/
theorem merge_scratch_independent (arr temp1 temp2 : List Int) (left mid right : Int)
    (hlen1 : temp1.length = arr.length) (hlen2 : temp2.length = arr.length)
    (h0 : 0 ≤ left) (hlm : left ≤ mid) (hmr : mid < right) (hr : right < arr.length) :
    ∃ arr1 t1 t2,
      merge arr temp1 left mid right = some (arr1, t1) ∧
      merge arr temp2 left mid right = some (arr1, t2) :=
  ⟨_, _, _, mergeBy_eq id arr temp1 left mid right h0 hlm hmr hr (by omega),
    mergeBy_eq id arr temp2 left mid right h0 hlm hmr hr (by omega)⟩

/-- An instance of `merge_scratch_independent`: two scratch arrays for `[5, 3,
8, 1, 2]`. -/
theorem merge_scratch_independent_witness :
    ∃ arr1 t1 t2,
      merge [5, 3, 8, 1, 2] [0, 0, 0, 0, 0] 0 1 3 = some (arr1, t1) ∧
      merge [5, 3, 8, 1, 2] [9, 8, 7, 6, 5] 0 1 3 = some (arr1, t2) :=
  merge_scratch_independent [5, 3, 8, 1, 2] [0, 0, 0, 0, 0] [9, 8, 7, 6, 5] 0 1 3 rfl rfl
    (by decide) (by decide) (by decide) (by decide)

/-- Independence of `mergeSort` from the scratch array below the overflow
bound.  For arrays of the same length and bounds inside the array with
`right <= 2^30`, `mergeSort` started with two different scratch arrays returns
the same `arr`. -/
theorem mergeSort_scratch_independent (fuel : Nat) (arr temp1 temp2 : List Int)
    (left right : Int)
    (hlen1 : temp1.length = arr.length) (hlen2 : temp2.length = arr.length)
    (h0 : 0 ≤ left) (hlr : left ≤ right + 1) (hr : right < arr.length)
    (hf : right - left ≤ fuel) (hb : right ≤ 1073741824) :
    ∃ arr1 t1 t2,
      mergeSort fuel arr temp1 left right = some (arr1, t1) ∧
      mergeSort fuel arr temp2 left right = some (arr1, t2) := by
  obtain ⟨t1, h1, -, -, -⟩ :=
    mergeSortBy_eq id fuel arr temp1 left right h0 hlr hr (by omega) hf hb
  obtain ⟨t2, h2, -, -, -⟩ :=
    mergeSortBy_eq id fuel arr temp2 left right h0 hlr hr (by omega) hf hb
  exact ⟨_, t1, t2, h1, h2⟩

/-- An instance of `mergeSort_scratch_independent`: two scratch arrays for `[5,
3, 8, 1, 2]`. -/
theorem mergeSort_scratch_independent_witness :
    ∃ arr1 t1 t2,
      mergeSort 4 [5, 3, 8, 1, 2] [0, 0, 0, 0, 0] 0 4 = some (arr1, t1) ∧
      mergeSort 4 [5, 3, 8, 1, 2] [9, 8, 7, 6, 5] 0 4 = some (arr1, t2) :=
  mergeSort_scratch_independent 4 [5, 3, 8, 1, 2] [0, 0, 0, 0, 0] [9, 8, 7, 6, 5] 0 4 rfl rfl
    (by decide) (by decide) (by decide) (by decide) (by decide)

/-! ## Stability, safety and the output -/

/-- Stability below the overflow bound.  For `n <= 2^30 + 1`, run on the input
with every value paired with its original index, the pairs being compared by
value only, the driver's call returns an array in which any two elements of
equal value stand in increasing order of original index.  That array is sorted
by value, it is a permutation of the indexed input, and its values are the array
the `int` program computes. -/
theorem mergeSort_stable (fuel : Nat) (s : List Int) (temp : List (Int × Nat))
    (hlen : temp.length = s.length) (hf : (s.length : Int) - 1 ≤ fuel)
    (hn : s.length ≤ 1073741825) :
    ∃ out temp1,
      mergeSortBy Prod.fst fuel (withIndex s) temp 0 ((s.length : Int) - 1) = some (out, temp1) ∧
      out.Pairwise (fun p q => p.1 = q.1 → p.2 < q.2) ∧
      out.Pairwise (fun p q => p.1 ≤ q.1) ∧
      out.Perm (withIndex s) ∧
      ∀ t : List Int, t.length = s.length →
        ∃ t1, mergeSort fuel s t 0 ((s.length : Int) - 1) = some (out.map Prod.fst, t1) := by
  have hwl : (withIndex s).length = s.length := by simp [withIndex]
  obtain ⟨temp1, h1, -, -, -⟩ := mergeSortBy_eq Prod.fst fuel (withIndex s) temp 0
    ((s.length : Int) - 1) le_rfl (by omega) (by omega) (by omega) (by omega) (by omega)
  have hs : slice (withIndex s) 0 ((s.length : Int) - 1) = withIndex s := by
    unfold slice
    have e : ((s.length : Int) - 1 + 1 - 0).toNat = (withIndex s).length := by omega
    rw [e]; simp
  have e0 : ((s.length : Int) - 1 + 1).toNat = (withIndex s).length := by omega
  rw [hs, e0] at h1
  simp only [Int.toNat_zero, List.take_zero, List.nil_append, List.drop_length,
    List.append_nil] at h1
  refine ⟨_, temp1, h1, stable_listMergeSort s, ?_, List.mergeSort_perm _ _, ?_⟩
  · have := sorted_listMergeSort Prod.fst (withIndex s)
    simpa [leBy] using this
  · intro t ht
    obtain ⟨t1, h2, -, -, -⟩ := mergeSortBy_eq id fuel s t 0 ((s.length : Int) - 1)
      le_rfl (by omega) (by omega) (by omega) (by omega) (by omega)
    have hs2 : slice s 0 ((s.length : Int) - 1) = s := by
      unfold slice
      have e : ((s.length : Int) - 1 + 1 - 0).toNat = s.length := by omega
      rw [e]; simp
    have e2 : ((s.length : Int) - 1 + 1).toNat = s.length := by omega
    rw [hs2, e2] at h2
    simp only [Int.toNat_zero, List.take_zero, List.nil_append, List.drop_length,
      List.append_nil] at h2
    refine ⟨t1, ?_⟩
    have hmap : (List.mergeSort (withIndex s) (leBy Prod.fst)).map Prod.fst
        = List.mergeSort s (leBy id) := by
      rw [@List.map_mergeSort (Int × Nat) Int (leBy Prod.fst) (leBy id) Prod.fst (withIndex s)
        (fun a _ b _ => rfl), withIndex_values]
    rw [hmap]
    exact h2

/-- An instance of `mergeSort_stable`: `[2, 2, 1, 1]` gives `[1, 1, 2, 2]`, the
two 1s and the two 2s each in original order. -/
theorem mergeSort_stable_witness :
    mergeSortBy Prod.fst 3 (withIndex [2, 2, 1, 1]) [(0, 0), (0, 0), (0, 0), (0, 0)] 0 3
      = some ([(1, 2), (1, 3), (2, 0), (2, 1)], [(1, 2), (1, 3), (2, 0), (2, 1)]) ∧
    ∃ out temp1,
      mergeSortBy Prod.fst 3 (withIndex [2, 2, 1, 1]) [(0, 0), (0, 0), (0, 0), (0, 0)] 0
          ((([2, 2, 1, 1] : List Int).length : Int) - 1) = some (out, temp1) ∧
      out.Pairwise (fun p q => p.1 = q.1 → p.2 < q.2) ∧
      out.Pairwise (fun p q => p.1 ≤ q.1) ∧
      out.Perm (withIndex [2, 2, 1, 1]) ∧
      ∀ t : List Int, t.length = ([2, 2, 1, 1] : List Int).length →
        ∃ t1, mergeSort 3 [2, 2, 1, 1] t 0 ((([2, 2, 1, 1] : List Int).length : Int) - 1)
          = some (out.map Prod.fst, t1) :=
  ⟨by decide,
    mergeSort_stable 3 [2, 2, 1, 1] [(0, 0), (0, 0), (0, 0), (0, 0)] rfl (by decide)
      (by decide)⟩

/-- Safety below the overflow bound.  For a non-empty array of `n <= 2^30 + 1`
cells and a scratch array of the same length the driver's call `mergeSort(arr,
temp, 0, n-1)` returns a result: no access of the run is out of bounds, an
access having a result exactly when its index is in `0 .. n - 1`. Every call of
`mergeSort` made during the run has bounds `0 <= left <= right <= n - 1` and
every call of `merge` has bounds `0 <= left <= mid < right <= n - 1`. -/
theorem mergeSort_safe (fuel : Nat) (arr temp : List Int) (hne : arr ≠ [])
    (hlen : temp.length = arr.length) (hf : (arr.length : Int) - 1 ≤ fuel)
    (hn : arr.length ≤ 1073741825) :
    (∃ arr1 temp1 calls,
      mergeSortTrace id fuel arr temp 0 ((arr.length : Int) - 1) = some ((arr1, temp1), calls) ∧
      mergeSort fuel arr temp 0 ((arr.length : Int) - 1) = some (arr1, temp1) ∧
      arr1.length = arr.length ∧ temp1.length = arr.length ∧
      ∀ c ∈ calls, Call.within 0 ((arr.length : Int) - 1) c) ∧
    (∀ (a : List Int) (i : Int), (readAt a i).isSome = true ↔ 0 ≤ i ∧ i < a.length) ∧
    (∀ (a : List Int) (i v : Int), (writeAt a i v).isSome = true ↔ 0 ≤ i ∧ i < a.length) := by
  have hpos : 0 < arr.length := List.length_pos.mpr hne
  refine ⟨?_, readAt_isSome, writeAt_isSome⟩
  obtain ⟨temp1, h1, hl1, -, -⟩ := mergeSortBy_eq id fuel arr temp 0 ((arr.length : Int) - 1)
    le_rfl (by omega) (by omega) (by omega) (by omega) (by omega)
  have her := mergeSortTrace_erase id fuel arr temp 0 ((arr.length : Int) - 1)
  rw [h1] at her
  obtain ⟨⟨res, calls⟩, htr, hres⟩ := Option.map_eq_some'.mp her
  simp only at hres
  subst hres
  obtain ⟨harr, -, -⟩ := split_at_range arr 0 ((arr.length : Int) - 1) le_rfl (by omega)
    (by omega)
  refine ⟨_, temp1, calls, htr, h1, ?_, by omega, ?_⟩
  · conv_rhs => rw [harr]
    simp only [List.length_append, List.length_mergeSort]
  · exact mergeSortTrace_within id fuel arr temp 0 ((arr.length : Int) - 1) _ calls le_rfl
      (by omega) (by omega) htr

/-- An instance of `mergeSort_safe` on `[5, 3, 8, 1, 2]`. -/
theorem mergeSort_safe_witness :
    (∃ arr1 temp1 calls,
      mergeSortTrace id 4 [5, 3, 8, 1, 2] [0, 0, 0, 0, 0] 0
          ((([5, 3, 8, 1, 2] : List Int).length : Int) - 1) = some ((arr1, temp1), calls) ∧
      mergeSort 4 [5, 3, 8, 1, 2] [0, 0, 0, 0, 0] 0
          ((([5, 3, 8, 1, 2] : List Int).length : Int) - 1) = some (arr1, temp1) ∧
      arr1.length = ([5, 3, 8, 1, 2] : List Int).length ∧
      temp1.length = ([5, 3, 8, 1, 2] : List Int).length ∧
      ∀ c ∈ calls, Call.within 0 ((([5, 3, 8, 1, 2] : List Int).length : Int) - 1) c) ∧
    (∀ (a : List Int) (i : Int), (readAt a i).isSome = true ↔ 0 ≤ i ∧ i < a.length) ∧
    (∀ (a : List Int) (i v : Int), (writeAt a i v).isSome = true ↔ 0 ≤ i ∧ i < a.length) :=
  mergeSort_safe 4 [5, 3, 8, 1, 2] [0, 0, 0, 0, 0] (by decide) rfl (by decide) (by decide)

theorem printLoop_eq (l : List Int) :
    printLoop l = String.join (l.map (fun x => toString x ++ " ")) := by
  have hfold : ∀ (xs : List String) (acc : String),
      List.foldl (fun r s => r ++ s) acc xs = acc ++ List.foldl (fun r s => r ++ s) "" xs := by
    intro xs
    induction xs with
    | nil => intro acc; simp
    | cons x xs ih =>
      intro acc
      rw [List.foldl_cons, List.foldl_cons, ih (acc ++ x), ih ("" ++ x)]
      simp [String.append_assoc]
  induction l with
  | nil => rfl
  | cons x l ih =>
    rw [printLoop, ih]
    simp only [String.join, List.map_cons, List.foldl_cons]
    rw [hfold _ ("" ++ (toString x ++ " "))]
    simp

/-- C10 (output format, as the code has it).  For every input of `n` integers
with `0 <= n <= 2^30 + 1` and every scratch array of the same length, the text
written after the sort is `Sorted array:\n`, then each of the `n` sorted
integers in decimal followed by one space, then a newline; the integers printed
are the input in non-decreasing order. -/
theorem mainOutput_format (fuel : Nat) (arr temp : List Int)
    (hlen : temp.length = arr.length) (hf : (arr.length : Int) - 1 ≤ fuel)
    (hn : arr.length ≤ 1073741825) :
    ∃ sorted : List Int,
      mainOutput fuel arr temp
        = some ("Sorted array:\n" ++ String.join (sorted.map (fun x => toString x ++ " "))
            ++ "\n") ∧
      sorted.Pairwise (fun a b => a ≤ b) ∧ sorted.Perm arr := by
  obtain ⟨temp1, h1, -, -, -⟩ := mergeSortBy_eq id fuel arr temp 0 ((arr.length : Int) - 1)
    le_rfl (by omega) (by omega) (by omega) (by omega) (by omega)
  have hs : slice arr 0 ((arr.length : Int) - 1) = arr := by
    unfold slice
    have e : ((arr.length : Int) - 1 + 1 - 0).toNat = arr.length := by omega
    rw [e]; simp
  have e0 : ((arr.length : Int) - 1 + 1).toNat = arr.length := by omega
  rw [hs, e0] at h1
  simp only [Int.toNat_zero, List.take_zero, List.nil_append, List.drop_length,
    List.append_nil] at h1
  refine ⟨List.mergeSort arr (leBy id), ?_, (pairwise_leBy_id _).mp (sorted_listMergeSort id arr),
    List.mergeSort_perm _ _⟩
  unfold mainOutput mergeSort
  rw [h1]
  simp only [Option.bind_eq_bind, Option.some_bind, Option.pure_def, printLoop_eq]

/-- Witness for C10 as amended: the inputs `3 1 2` and the empty input. -/
theorem mainOutput_format_witness :
    mainOutput 2 [3, 1, 2] [0, 0, 0] = some "Sorted array:\n1 2 3 \n" ∧
    mainOutput 0 [] [] = some "Sorted array:\n\n" ∧
    ∃ sorted : List Int,
      mainOutput 2 [3, 1, 2] [0, 0, 0]
        = some ("Sorted array:\n" ++ String.join (sorted.map (fun x => toString x ++ " "))
            ++ "\n") ∧
      sorted.Pairwise (fun a b => a ≤ b) ∧ sorted.Perm [3, 1, 2] :=
  ⟨by decide, by decide, mainOutput_format 2 [3, 1, 2] [0, 0, 0] rfl (by decide) (by decide)⟩

/-- C10, the claim as worded fails: for the input `3 1 2` the program writes
`1 2 3 ` with a space after the last integer, where the claim has `1 2 3`. -/
theorem mainOutput_not_separated :
    mainOutput 2 [3, 1, 2] [0, 0, 0] = some "Sorted array:\n1 2 3 \n" ∧
    separatedOutput [1, 2, 3] = "Sorted array:\n1 2 3\n" ∧
    mainOutput 2 [3, 1, 2] [0, 0, 0] ≠ some (separatedOutput [1, 2, 3]) := by
  decide

/-! ## The driver's call -/

/-- For `n <= 2^30 + 1` the driver's call `mergeSort(arr, temp, 0, n - 1)`
returns the list merge sort of the whole array. -/
theorem mergeSortBy_driver (key : α → Int) (fuel : Nat) (s temp : List α)
    (hlen : temp.length = s.length) (hf : (s.length : Int) - 1 ≤ fuel)
    (hn : s.length ≤ 1073741825) :
    ∃ t1, mergeSortBy key fuel s temp 0 ((s.length : Int) - 1)
        = some (List.mergeSort s (leBy key), t1) ∧ t1.length = temp.length := by
  obtain ⟨t1, h1, hl, -, -⟩ := mergeSortBy_eq key fuel s temp 0 ((s.length : Int) - 1)
    le_rfl (by omega) (by omega) (by omega) (by omega) (by omega)
  have hs : slice s 0 ((s.length : Int) - 1) = s := by
    unfold slice
    have e : ((s.length : Int) - 1 + 1 - 0).toNat = s.length := by omega
    rw [e]; simp
  have e0 : ((s.length : Int) - 1 + 1).toNat = s.length := by omega
  rw [hs, e0] at h1
  simp only [Int.toNat_zero, List.take_zero, List.nil_append, List.drop_length,
    List.append_nil] at h1
  exact ⟨t1, h1, hl⟩

/-- Two sorted lists of integers with the same elements are the same list. -/
theorem sorted_perm_unique (l1 l2 : List Int) (hp : l1.Perm l2)
    (h1 : l1.Pairwise (fun a b => a ≤ b)) (h2 : l2.Pairwise (fun a b => a ≤ b)) : l1 = l2 :=
  List.eq_of_perm_of_sorted hp h1 h2

/-- A run on a range of two or more cells logs the call of `merge` on the
whole range. -/
theorem mergeSortTrace_top_merge (key : α → Int) (fuel : Nat) (arr temp : List α)
    (left right : Int) (res : List α × List α) (calls : List Call) (hlt : left < right)
    (h : mergeSortTrace key fuel arr temp left right = some (res, calls)) :
    Call.merge left (midpoint32 left right) right ∈ calls := by
  cases fuel with
  | zero =>
    unfold mergeSortTrace at h
    simp [hlt] at h
  | succ f =>
    unfold mergeSortTrace at h
    simp only [hlt, if_true, Option.bind_eq_bind, Option.bind_eq_some] at h
    obtain ⟨r1, -, r2, -, r3, -, h4⟩ := h
    simp only [Option.pure_def, Option.some.injEq, Prod.mk.injEq] at h4
    rw [← h4.2]
    simp

/-! ## Fixed points and order of the input -/

/-- Sorted input below the overflow bound.  For every `int` sequence `s` of at
most `2^30 + 1` elements in non-decreasing order the driver's call returns with
the array exactly `s`; when `s` has two or more elements the run still calls
`merge` on the whole range. -/
theorem mergeSort_sorted_fixed (fuel : Nat) (s temp : List Int)
    (hlen : temp.length = s.length) (hf : (s.length : Int) - 1 ≤ fuel)
    (hn : s.length ≤ 1073741825) (hs : s.Pairwise (fun a b => a ≤ b)) :
    ∃ t1,
      mergeSort fuel s temp 0 ((s.length : Int) - 1) = some (s, t1) ∧
      (2 ≤ s.length →
        ∃ calls,
          mergeSortTrace id fuel s temp 0 ((s.length : Int) - 1) = some ((s, t1), calls) ∧
          Call.merge 0 (midpoint32 0 ((s.length : Int) - 1)) ((s.length : Int) - 1) ∈ calls) := by
  obtain ⟨t1, h1, -⟩ := mergeSortBy_driver id fuel s temp hlen hf hn
  rw [List.mergeSort_of_sorted ((pairwise_leBy_id s).mpr hs)] at h1
  refine ⟨t1, h1, ?_⟩
  intro h2
  have her := mergeSortTrace_erase id fuel s temp 0 ((s.length : Int) - 1)
  rw [h1] at her
  obtain ⟨⟨res, calls⟩, htr, hres⟩ := Option.map_eq_some'.mp her
  simp only at hres
  subst hres
  exact ⟨calls, htr, mergeSortTrace_top_merge id fuel s temp 0 _ _ calls (by omega) htr⟩

/-- An instance of `mergeSort_sorted_fixed`: `[1, 2, 3, 4]` is unchanged and
`merge` is called on `0 .. 3`. -/
theorem mergeSort_sorted_fixed_witness :
    mergeSort 3 [1, 2, 3, 4] [0, 0, 0, 0] 0 3 = some ([1, 2, 3, 4], [1, 2, 3, 4]) ∧
    ∃ t1,
      mergeSort 3 [1, 2, 3, 4] [0, 0, 0, 0] 0 ((([1, 2, 3, 4] : List Int).length : Int) - 1)
        = some ([1, 2, 3, 4], t1) ∧
      (2 ≤ ([1, 2, 3, 4] : List Int).length →
        ∃ calls,
          mergeSortTrace id 3 [1, 2, 3, 4] [0, 0, 0, 0] 0
              ((([1, 2, 3, 4] : List Int).length : Int) - 1) = some (([1, 2, 3, 4], t1), calls) ∧
          Call.merge 0 (midpoint32 0 ((([1, 2, 3, 4] : List Int).length : Int) - 1))
            ((([1, 2, 3, 4] : List Int).length : Int) - 1) ∈ calls) :=
  ⟨by decide,
    mergeSort_sorted_fixed 3 [1, 2, 3, 4] [0, 0, 0, 0] rfl (by decide) (by decide)
      (by decide)⟩

/-- Reverse-sorted input below the overflow bound.  For every `int` sequence `s`
of at most `2^30 + 1` elements in non-increasing order the driver's call returns
with the array equal to the reversal of `s`. -/
theorem mergeSort_reverse_sorted (fuel : Nat) (s temp : List Int)
    (hlen : temp.length = s.length) (hf : (s.length : Int) - 1 ≤ fuel)
    (hn : s.length ≤ 1073741825) (hs : s.Pairwise (fun a b => b ≤ a)) :
    ∃ t1, mergeSort fuel s temp 0 ((s.length : Int) - 1) = some (s.reverse, t1) := by
  obtain ⟨t1, h1, -⟩ := mergeSortBy_driver id fuel s temp hlen hf hn
  have hrev : s.reverse.Pairwise (fun a b => a ≤ b) := List.pairwise_reverse.mpr hs
  have heq : List.mergeSort s (leBy id) = s.reverse :=
    sorted_perm_unique _ _ ((List.mergeSort_perm s (leBy id)).trans (List.reverse_perm s).symm)
      ((pairwise_leBy_id _).mp (sorted_listMergeSort id s)) hrev
  rw [heq] at h1
  exact ⟨t1, h1⟩

/-- An instance of `mergeSort_reverse_sorted`: `[4, 3, 2, 1]` becomes `[1, 2, 3,
4]`. -/
theorem mergeSort_reverse_sorted_witness :
    mergeSort 3 [4, 3, 2, 1] [0, 0, 0, 0] 0 3 = some ([1, 2, 3, 4], [1, 2, 3, 4]) ∧
    ∃ t1,
      mergeSort 3 [4, 3, 2, 1] [0, 0, 0, 0] 0 ((([4, 3, 2, 1] : List Int).length : Int) - 1)
        = some (([4, 3, 2, 1] : List Int).reverse, t1) :=
  ⟨by decide,
    mergeSort_reverse_sorted 3 [4, 3, 2, 1] [0, 0, 0, 0] rfl (by decide) (by decide)
      (by decide)⟩

/-- The result depends only on the multiset of inputs, below the overflow bound.
For two `int` sequences of at most `2^30 + 1` elements that are permutations of
each other, the driver's calls started from the one and from the other, with any
scratch arrays, return the same array. -/
theorem mergeSort_multiset_invariant (fuel fuel2 : Nat) (s s2 temp temp2 : List Int)
    (hperm : s.Perm s2)
    (hlen : temp.length = s.length) (hlen2 : temp2.length = s2.length)
    (hf : (s.length : Int) - 1 ≤ fuel) (hf2 : (s2.length : Int) - 1 ≤ fuel2)
    (hn : s.length ≤ 1073741825) :
    ∃ out t1 t2,
      mergeSort fuel s temp 0 ((s.length : Int) - 1) = some (out, t1) ∧
      mergeSort fuel2 s2 temp2 0 ((s2.length : Int) - 1) = some (out, t2) := by
  obtain ⟨t1, h1, -⟩ := mergeSortBy_driver id fuel s temp hlen hf hn
  obtain ⟨t2, h2, -⟩ := mergeSortBy_driver id fuel2 s2 temp2 hlen2 hf2
    (by rw [← hperm.length_eq]; exact hn)
  have heq : List.mergeSort s (leBy id) = List.mergeSort s2 (leBy id) :=
    sorted_perm_unique _ _
      (((List.mergeSort_perm s (leBy id)).trans hperm).trans (List.mergeSort_perm s2 (leBy id)).symm)
      ((pairwise_leBy_id _).mp (sorted_listMergeSort id s))
      ((pairwise_leBy_id _).mp (sorted_listMergeSort id s2))
  rw [← heq] at h2
  exact ⟨_, t1, t2, h1, h2⟩

/-- An instance of `mergeSort_multiset_invariant`: `[3, 1, 2]` and `[2, 3, 1]`
both give `[1, 2, 3]`. -/
theorem mergeSort_multiset_invariant_witness :
    mergeSort 2 [3, 1, 2] [0, 0, 0] 0 2 = some ([1, 2, 3], [1, 2, 3]) ∧
    mergeSort 2 [2, 3, 1] [7, 7, 7] 0 2 = some ([1, 2, 3], [1, 2, 3]) ∧
    ∃ out t1 t2,
      mergeSort 2 [3, 1, 2] [0, 0, 0] 0 ((([3, 1, 2] : List Int).length : Int) - 1)
        = some (out, t1) ∧
      mergeSort 2 [2, 3, 1] [7, 7, 7] 0 ((([2, 3, 1] : List Int).length : Int) - 1)
        = some (out, t2) :=
  ⟨by decide, by decide,
    mergeSort_multiset_invariant 2 2 [3, 1, 2] [2, 3, 1] [0, 0, 0] [7, 7, 7] (by decide) rfl rfl
      (by decide) (by decide) (by decide)⟩

/-! ## `merge` -/

/-- C18 (merge never loses or invents data).  For arrays of the same length and
bounds `0 <= left <= mid < right <= n - 1`, with no order assumed on the two
halves, `merge` returns, the values of `arr[left .. right]` after the call are
a permutation of the values there before, and so is the whole array. -/
theorem merge_permutation (arr temp : List Int) (left mid right : Int)
    (hlen : temp.length = arr.length) (h0 : 0 ≤ left) (hlm : left ≤ mid) (hmr : mid < right)
    (hr : right < arr.length) :
    ∃ arr1 temp1,
      merge arr temp left mid right = some (arr1, temp1) ∧
      (slice arr1 left right).Perm (slice arr left right) ∧
      arr1.Perm arr := by
  have h1 := mergeBy_eq id arr temp left mid right h0 hlm hmr hr (by omega)
  obtain ⟨harr, hP, hX⟩ := split_at_range arr left right h0 (by omega) hr
  obtain ⟨_, _, hXL⟩ := split_at_range arr left mid h0 (by omega) (by omega)
  obtain ⟨_, _, hXR⟩ := split_at_range arr (mid + 1) right (by omega) (by omega) hr
  have hcut : slice arr left right = slice arr left mid ++ slice arr (mid + 1) right := by
    unfold slice
    have e1 : (right + 1 - left).toNat = (mid + 1 - left).toNat + (right + 1 - (mid + 1)).toNat := by
      omega
    have e2 : (mid + 1).toNat = left.toNat + (mid + 1 - left).toNat := by omega
    rw [e1, e2, ← List.drop_drop, List.take_add]
  have hperm : (List.merge (slice arr left mid) (slice arr (mid + 1) right) (leBy id)).Perm
      (slice arr left right) := by
    rw [hcut]
    exact List.merge_perm_append (leBy id)
  refine ⟨_, _, h1, ?_, ?_⟩
  · rw [slice_of_segments _ _ _ left right hP.symm (by rw [List.length_merge]; omega)]
    exact hperm
  · conv_rhs => rw [harr]
    exact (List.Perm.append_left _ hperm).append_right _

/-- Witness for C18: merging the unsorted halves `[5, 3]` and `[8, 1]`. -/
theorem merge_permutation_witness :
    merge [5, 3, 8, 1, 2] [9, 9, 9, 9, 9] 0 1 3 = some ([5, 3, 8, 1, 2], [5, 3, 8, 1, 9]) ∧
    ∃ arr1 temp1,
      merge [5, 3, 8, 1, 2] [9, 9, 9, 9, 9] 0 1 3 = some (arr1, temp1) ∧
      (slice arr1 0 3).Perm (slice [5, 3, 8, 1, 2] 0 3) ∧
      arr1.Perm [5, 3, 8, 1, 2] :=
  ⟨by decide,
    merge_permutation [5, 3, 8, 1, 2] [9, 9, 9, 9, 9] 0 1 3 rfl (by decide) (by decide)
      (by decide) (by decide)⟩

theorem referenceMerge_eq_listMerge :
    ∀ (l r : List Int), referenceMerge l r = List.merge l r (leBy id) := by
  intro l
  induction l with
  | nil => intro r; simp [referenceMerge]
  | cons a l ihl =>
    intro r
    induction r with
    | nil => simp [referenceMerge]
    | cons b r ihr =>
      rw [referenceMerge, List.cons_merge_cons, ihl (b :: r), ihr]
      simp [leBy]

/-- C15 (merge is the left-biased two-cursor merge).  For arrays of the same
length and bounds `0 <= left <= mid < right <= n - 1`, with no order assumed,
`merge` returns and afterwards `arr[left .. right]` is the reference merge of
the old `arr[left .. mid]` and the old `arr[mid+1 .. right]`. -/
theorem merge_refines_reference (arr temp : List Int) (left mid right : Int)
    (hlen : temp.length = arr.length) (h0 : 0 ≤ left) (hlm : left ≤ mid) (hmr : mid < right)
    (hr : right < arr.length) :
    ∃ arr1 temp1,
      merge arr temp left mid right = some (arr1, temp1) ∧
      arr1.length = arr.length ∧
      slice arr1 left right
        = referenceMerge (slice arr left mid) (slice arr (mid + 1) right) := by
  have h1 := mergeBy_eq id arr temp left mid right h0 hlm hmr hr (by omega)
  obtain ⟨harr, hP, hX⟩ := split_at_range arr left right h0 (by omega) hr
  obtain ⟨_, _, hXL⟩ := split_at_range arr left mid h0 (by omega) (by omega)
  obtain ⟨_, _, hXR⟩ := split_at_range arr (mid + 1) right (by omega) (by omega) hr
  have hMlen : (List.merge (slice arr left mid) (slice arr (mid + 1) right) (leBy id)).length
      = (slice arr left right).length := by
    rw [List.length_merge]; omega
  refine ⟨_, _, h1, ?_, ?_⟩
  · conv_rhs => rw [harr]
    simp only [List.length_append, hMlen]
  · rw [slice_of_segments _ _ _ left right hP.symm (by rw [hMlen]; omega),
      referenceMerge_eq_listMerge]

/-- Witness for C15: a tie between the halves `[2, 5]` and `[2, 3]`. -/
theorem merge_refines_reference_witness :
    merge [2, 5, 2, 3] [0, 0, 0, 0] 0 1 3 = some ([2, 2, 3, 5], [2, 2, 3, 5]) ∧
    referenceMerge [2, 5] [2, 3] = [2, 2, 3, 5] ∧
    ∃ arr1 temp1,
      merge [2, 5, 2, 3] [0, 0, 0, 0] 0 1 3 = some (arr1, temp1) ∧
      arr1.length = ([2, 5, 2, 3] : List Int).length ∧
      slice arr1 0 3 = referenceMerge (slice [2, 5, 2, 3] 0 1) (slice [2, 5, 2, 3] (1 + 1) 3) :=
  ⟨by decide, by simp [referenceMerge],
    merge_refines_reference [2, 5, 2, 3] [0, 0, 0, 0] 0 1 3 rfl (by decide) (by decide)
      (by decide) (by decide)⟩

/-! ## The midpoint -/

/-- Range partition while the sum fits in 32 bits.  For bounds `0 <= left < right`
with `left + right <= 2^31 - 1` the `mid` of line 37 is
`floor((left + right) / 2)` and `left <= mid < right`; the two child ranges
`left .. mid` and `mid+1 .. right` are non-empty, lie inside `left .. right`,
are disjoint and together cover `left .. right`; these are the ranges of the two
recursive calls and of the call of `merge`. -/
theorem midpoint32_partition (left right : Int) (h0 : 0 ≤ left) (hlt : left < right)
    (hsum : left + right ≤ 2147483647) :
    midpoint32 left right = Int.fdiv (left + right) 2 ∧
    left ≤ midpoint32 left right ∧ midpoint32 left right < right ∧
    (∀ i : Int, (left ≤ i ∧ i ≤ right) ↔
      ((left ≤ i ∧ i ≤ midpoint32 left right) ∨ (midpoint32 left right + 1 ≤ i ∧ i ≤ right))) ∧
    (∀ i : Int, ¬ ((left ≤ i ∧ i ≤ midpoint32 left right) ∧
      (midpoint32 left right + 1 ≤ i ∧ i ≤ right))) ∧
    (∀ (fuel : Nat) (arr temp : List Int),
      mergeSort (fuel + 1) arr temp left right
        = (mergeSort fuel arr temp left (midpoint32 left right)).bind fun r1 =>
            (mergeSort fuel r1.1 r1.2 (midpoint32 left right + 1) right).bind fun r2 =>
              merge r2.1 r2.2 left (midpoint32 left right) right) := by
  have hm := midpoint32_exact left right (by omega) hsum
  refine ⟨?_, ?_, ?_, ?_, ?_, ?_⟩
  · rw [hm, Int.fdiv_eq_ediv _ (by decide)]
  · rw [hm]; omega
  · rw [hm]; omega
  · intro i; rw [hm]; omega
  · intro i; omega
  · intro fuel arr temp
    exact mergeSortBy_step id fuel arr temp left right hlt

/-- An instance of `midpoint32_partition`: the range `0 .. 4` splits at `mid =
2`. -/
theorem midpoint32_partition_witness :
    midpoint32 0 4 = 2 ∧
    (midpoint32 0 4 = Int.fdiv (0 + 4) 2 ∧
    0 ≤ midpoint32 0 4 ∧ midpoint32 0 4 < 4 ∧
    (∀ i : Int, (0 ≤ i ∧ i ≤ 4) ↔
      ((0 ≤ i ∧ i ≤ midpoint32 0 4) ∨ (midpoint32 0 4 + 1 ≤ i ∧ i ≤ 4))) ∧
    (∀ i : Int, ¬ ((0 ≤ i ∧ i ≤ midpoint32 0 4) ∧ (midpoint32 0 4 + 1 ≤ i ∧ i ≤ 4))) ∧
    (∀ (fuel : Nat) (arr temp : List Int),
      mergeSort (fuel + 1) arr temp 0 4
        = (mergeSort fuel arr temp 0 (midpoint32 0 4)).bind fun r1 =>
            (mergeSort fuel r1.1 r1.2 (midpoint32 0 4 + 1) 4).bind fun r2 =>
              merge r2.1 r2.2 0 (midpoint32 0 4) 4)) :=
  ⟨by decide, midpoint32_partition 0 4 (by decide) (by decide) (by decide)⟩

/-- C17 (midpoint under machine arithmetic), the code at a failing input: with
`left = 2^30` and `right = 2^30 + 1`, both at most `2^31 - 1`, the sum wraps to
`-2147483647`, so `mid` is `-1073741823`, below `left`. -/
theorem midpoint32_overflow :
    (0 : Int) ≤ 1073741824 ∧ (1073741824 : Int) < 1073741825 ∧
    (1073741825 : Int) ≤ 2147483647 ∧
    wrapInt32 (1073741824 + 1073741825) = -2147483647 ∧
    midpoint32 1073741824 1073741825 = -1073741823 ∧
    ¬ (1073741824 ≤ midpoint32 1073741824 1073741825) := by
  decide

/-! ## Termination -/

/-- Termination below the overflow bound.  For arrays of the same length and
bounds inside the array with `right <= 2^30`, and for every call with
`left >= right`, `mergeSort` returns: recursion depth `right - left` is enough
and more depth gives the same result.  Each recursive call is on a range with a
strictly smaller `right - left`.  Each loop of `merge` ends within the distance
of its cursors to their bounds: a larger budget never changes what a loop
returns. -/
theorem mergeSort_terminates (fuel : Nat) (arr temp : List Int) (left right : Int)
    (hlen : temp.length = arr.length)
    (hb : (0 ≤ left ∧ right < arr.length ∧ right ≤ 1073741824) ∨ right ≤ left)
    (hf : right - left ≤ fuel) :
    (∃ res, ∀ k : Nat, mergeSort (fuel + k) arr temp left right = some res) ∧
    (left < right →
      (midpoint32 left right - left).toNat < (right - left).toNat ∧
      (right - (midpoint32 left right + 1)).toNat < (right - left).toNat) ∧
    (∀ (mid1 right1 : Int) (t : List Int) (leftIndex rightIndex mergeIndex : Int) (k : Nat),
      mergeLoopFuel id arr mid1 right1
          ((mid1 + 1 - leftIndex).toNat + (right1 + 1 - rightIndex).toNat + k)
          t leftIndex rightIndex mergeIndex
        = mergeLoop id arr mid1 right1 t leftIndex rightIndex mergeIndex) ∧
    (∀ (bound : Int) (t : List Int) (index mergeIndex : Int) (k : Nat),
      copyLoopFuel arr bound ((bound + 1 - index).toNat + k) t index mergeIndex
        = copyLoop arr bound t index mergeIndex) ∧
    (∀ (right1 : Int) (a : List Int) (i : Int) (k : Nat),
      copyBackFuel temp right1 ((right1 + 1 - i).toNat + k) a i = copyBack temp right1 a i) := by
  refine ⟨?_, ?_, ?_, ?_, ?_⟩
  · have hres : ∃ res, mergeSortBy id fuel arr temp left right = some res := by
      by_cases hlt : left < right
      · obtain ⟨h0, hr, hb1⟩ : 0 ≤ left ∧ right < arr.length ∧ right ≤ 1073741824 := by
          rcases hb with hb | hb
          · exact hb
          · omega
        obtain ⟨t1, h1, -⟩ := mergeSortBy_eq id fuel arr temp left right h0 (by omega) hr
          (by omega) hf hb1
        exact ⟨_, h1⟩
      · exact ⟨_, mergeSortBy_of_not_lt id fuel arr temp left right (by omega)⟩
    obtain ⟨res, h⟩ := hres
    exact ⟨res, fun k => mergeSortBy_fuel_mono id k fuel arr temp left right res h⟩
  · intro hlt
    have hb1 : 0 ≤ left ∧ right ≤ 1073741824 := by
      rcases hb with hb | hb
      · exact ⟨hb.1, hb.2.2⟩
      · omega
    have hm := midpoint32_exact left right (by omega) (by omega)
    rw [hm]
    omega
  · intro mid1 right1 t leftIndex rightIndex mergeIndex k
    exact mergeLoopFuel_budget id arr mid1 right1 k _ t leftIndex rightIndex mergeIndex le_rfl
  · intro bound t index mergeIndex k
    exact copyLoopFuel_budget arr bound k _ t index mergeIndex le_rfl
  · intro right1 a i k
    exact copyBackFuel_budget temp right1 k _ a i le_rfl

/-- An instance of `mergeSort_terminates`: the call on the whole of `[5, 3, 8,
1, 2]`. -/
theorem mergeSort_terminates_witness :
    (∃ res, ∀ k : Nat, mergeSort (4 + k) [5, 3, 8, 1, 2] [0, 0, 0, 0, 0] 0 4 = some res) ∧
    ((0 : Int) < 4 →
      (midpoint32 0 4 - 0).toNat < ((4 : Int) - 0).toNat ∧
      (4 - (midpoint32 0 4 + 1)).toNat < ((4 : Int) - 0).toNat) ∧
    (∀ (mid1 right1 : Int) (t : List Int) (leftIndex rightIndex mergeIndex : Int) (k : Nat),
      mergeLoopFuel id [5, 3, 8, 1, 2] mid1 right1
          ((mid1 + 1 - leftIndex).toNat + (right1 + 1 - rightIndex).toNat + k)
          t leftIndex rightIndex mergeIndex
        = mergeLoop id [5, 3, 8, 1, 2] mid1 right1 t leftIndex rightIndex mergeIndex) ∧
    (∀ (bound : Int) (t : List Int) (index mergeIndex : Int) (k : Nat),
      copyLoopFuel [5, 3, 8, 1, 2] bound ((bound + 1 - index).toNat + k) t index mergeIndex
        = copyLoop [5, 3, 8, 1, 2] bound t index mergeIndex) ∧
    (∀ (right1 : Int) (a : List Int) (i : Int) (k : Nat),
      copyBackFuel [0, 0, 0, 0, 0] right1 ((right1 + 1 - i).toNat + k) a i
        = copyBack [0, 0, 0, 0, 0] right1 a i) :=
  mergeSort_terminates 4 [5, 3, 8, 1, 2] [0, 0, 0, 0, 0] 0 4 rfl
    (Or.inl ⟨by decide, by decide, by decide⟩) (by decide)

/-! ## The scratch array -/

theorem count_indexRange (j : Int) :
    ∀ (n : Nat) (lo : Int),
      (indexRange lo n).count j = if lo ≤ j ∧ j < lo + n then 1 else 0 := by
  intro n
  induction n with
  | zero =>
    intro lo
    have : ¬ (lo ≤ j ∧ j < lo + ((0 : Nat) : Int)) := by omega
    rw [indexRange, if_neg this, List.count_nil]
  | succ n ih =>
    intro lo
    rw [indexRange, List.count_cons, ih (lo + 1)]
    simp only [beq_iff_eq]
    split_ifs <;> omega

theorem indexRange_append (a b : Nat) :
    ∀ lo : Int, indexRange lo a ++ indexRange (lo + a) b = indexRange lo (a + b) := by
  induction a with
  | zero => intro lo; simp [indexRange]
  | succ a ih =>
    intro lo
    rw [show a + 1 + b = (a + b) + 1 by omega, indexRange, indexRange, List.cons_append,
      ← ih (lo + 1)]
    congr 3
    push_cast
    omega

theorem copyLoopFuelW_erase (arr : List α) (bound : Int) :
    ∀ (fuel : Nat) (temp : List α) (index mergeIndex : Int),
      (copyLoopFuelW arr bound fuel temp index mergeIndex).map Prod.fst
        = copyLoopFuel arr bound fuel temp index mergeIndex := by
  intro fuel
  induction fuel with
  | zero =>
    intro temp index mergeIndex
    unfold copyLoopFuelW copyLoopFuel
    by_cases h : index ≤ bound <;> simp [h]
  | succ f ih =>
    intro temp index mergeIndex
    unfold copyLoopFuelW copyLoopFuel
    by_cases h : index ≤ bound
    · simp only [h, if_true, Option.bind_eq_bind]
      cases readAt arr index with
      | none => rfl
      | some a =>
        simp only [Option.some_bind]
        cases writeAt temp mergeIndex a with
        | none => rfl
        | some temp1 =>
          simp only [Option.some_bind]
          rw [← ih temp1 (index + 1) (mergeIndex + 1)]
          cases copyLoopFuelW arr bound f temp1 (index + 1) (mergeIndex + 1) <;> rfl
    · simp [h]

theorem mergeLoopFuelW_erase (key : α → Int) (arr : List α) (mid right : Int) :
    ∀ (fuel : Nat) (temp : List α) (leftIndex rightIndex mergeIndex : Int),
      (mergeLoopFuelW key arr mid right fuel temp leftIndex rightIndex mergeIndex).map Prod.fst
        = mergeLoopFuel key arr mid right fuel temp leftIndex rightIndex mergeIndex := by
  intro fuel
  induction fuel with
  | zero =>
    intro temp leftIndex rightIndex mergeIndex
    unfold mergeLoopFuelW mergeLoopFuel
    by_cases h : leftIndex ≤ mid ∧ rightIndex ≤ right <;> simp [h]
  | succ f ih =>
    intro temp leftIndex rightIndex mergeIndex
    unfold mergeLoopFuelW mergeLoopFuel
    by_cases h : leftIndex ≤ mid ∧ rightIndex ≤ right
    · simp only [h, and_self, if_true, Option.bind_eq_bind]
      cases readAt arr leftIndex with
      | none => rfl
      | some a =>
        simp only [Option.some_bind]
        cases readAt arr rightIndex with
        | none => rfl
        | some b =>
          simp only [Option.some_bind]
          by_cases hab : key a ≤ key b
          · simp only [hab, if_true]
            cases writeAt temp mergeIndex a with
            | none => rfl
            | some temp1 =>
              simp only [Option.some_bind]
              rw [← ih temp1 (leftIndex + 1) rightIndex (mergeIndex + 1)]
              cases mergeLoopFuelW key arr mid right f temp1 (leftIndex + 1) rightIndex
                (mergeIndex + 1) <;> rfl
          · simp only [hab, if_false]
            cases writeAt temp mergeIndex b with
            | none => rfl
            | some temp1 =>
              simp only [Option.some_bind]
              rw [← ih temp1 leftIndex (rightIndex + 1) (mergeIndex + 1)]
              cases mergeLoopFuelW key arr mid right f temp1 leftIndex (rightIndex + 1)
                (mergeIndex + 1) <;> rfl
    · simp [h]

theorem copyLoopFuelW_writes (arr : List α) (bound : Int) :
    ∀ (fuel : Nat) (temp : List α) (index mergeIndex : Int) (t : List α) (m1 : Int)
      (writes : List Int),
      index ≤ bound + 1 →
      copyLoopFuelW arr bound fuel temp index mergeIndex = some ((t, m1), writes) →
      m1 = mergeIndex + (bound + 1 - index) ∧
      writes = indexRange mergeIndex (bound + 1 - index).toNat := by
  intro fuel
  induction fuel with
  | zero =>
    intro temp index mergeIndex t m1 writes hi h
    unfold copyLoopFuelW at h
    by_cases hc : index ≤ bound
    · simp [hc] at h
    · simp only [hc, if_false, Option.some.injEq, Prod.mk.injEq] at h
      obtain ⟨⟨-, rfl⟩, rfl⟩ := h
      have e : (bound + 1 - index).toNat = 0 := by omega
      rw [e]
      exact ⟨by omega, rfl⟩
  | succ f ih =>
    intro temp index mergeIndex t m1 writes hi h
    unfold copyLoopFuelW at h
    by_cases hc : index ≤ bound
    · simp only [hc, if_true, Option.bind_eq_bind, Option.bind_eq_some] at h
      obtain ⟨a, -, temp1, -, ⟨⟨t2, m2⟩, w2⟩, hrec, heq⟩ := h
      simp only [Option.pure_def, Option.some.injEq, Prod.mk.injEq] at heq
      obtain ⟨⟨-, rfl⟩, rfl⟩ := heq
      obtain ⟨hm, hw⟩ := ih temp1 (index + 1) (mergeIndex + 1) t2 m2 w2 (by omega) hrec
      have e : (bound + 1 - index).toNat = (bound + 1 - (index + 1)).toNat + 1 := by omega
      rw [e, indexRange, ← hw]
      exact ⟨by omega, rfl⟩
    · simp only [hc, if_false, Option.some.injEq, Prod.mk.injEq] at h
      obtain ⟨⟨-, rfl⟩, rfl⟩ := h
      have e : (bound + 1 - index).toNat = 0 := by omega
      rw [e]
      exact ⟨by omega, rfl⟩

theorem mergeLoopFuelW_writes (key : α → Int) (arr : List α) (mid right : Int) :
    ∀ (fuel : Nat) (temp : List α) (leftIndex rightIndex mergeIndex : Int) (t : List α)
      (l1 r1 m1 : Int) (writes : List Int),
      leftIndex ≤ mid + 1 → rightIndex ≤ right + 1 →
      mergeLoopFuelW key arr mid right fuel temp leftIndex rightIndex mergeIndex
        = some ((t, l1, r1, m1), writes) →
      leftIndex ≤ l1 ∧ l1 ≤ mid + 1 ∧ rightIndex ≤ r1 ∧ r1 ≤ right + 1 ∧
      m1 = mergeIndex + ((l1 - leftIndex) + (r1 - rightIndex)) ∧
      writes = indexRange mergeIndex ((l1 - leftIndex) + (r1 - rightIndex)).toNat := by
  intro fuel
  induction fuel with
  | zero =>
    intro temp leftIndex rightIndex mergeIndex t l1 r1 m1 writes hl hr h
    unfold mergeLoopFuelW at h
    by_cases hc : leftIndex ≤ mid ∧ rightIndex ≤ right
    · simp [hc] at h
    · simp only [hc, if_false, Option.some.injEq, Prod.mk.injEq] at h
      obtain ⟨⟨-, rfl, rfl, rfl⟩, rfl⟩ := h
      have e : ((leftIndex - leftIndex) + (rightIndex - rightIndex)).toNat = 0 := by omega
      rw [e]
      exact ⟨le_rfl, hl, le_rfl, hr, by omega, rfl⟩
  | succ f ih =>
    intro temp leftIndex rightIndex mergeIndex t l1 r1 m1 writes hl hr h
    unfold mergeLoopFuelW at h
    by_cases hc : leftIndex ≤ mid ∧ rightIndex ≤ right
    · simp only [hc, and_self, if_true, Option.bind_eq_bind, Option.bind_eq_some] at h
      obtain ⟨a, -, b, -, h⟩ := h
      by_cases hab : key a ≤ key b
      · simp only [hab, if_true, Option.bind_eq_some] at h
        obtain ⟨temp1, -, ⟨⟨t2, l2, r2, m2⟩, w2⟩, hrec, heq⟩ := h
        simp only [Option.pure_def, Option.some.injEq, Prod.mk.injEq] at heq
        obtain ⟨⟨-, rfl, rfl, rfl⟩, rfl⟩ := heq
        obtain ⟨i1, i2, i3, i4, i5, i6⟩ := ih temp1 (leftIndex + 1) rightIndex (mergeIndex + 1)
          t2 l2 r2 m2 w2 (by omega) hr hrec
        have e : ((l2 - leftIndex) + (r2 - rightIndex)).toNat
            = ((l2 - (leftIndex + 1)) + (r2 - rightIndex)).toNat + 1 := by omega
        rw [e, indexRange, ← i6]
        exact ⟨by omega, i2, i3, i4, by omega, rfl⟩
      · simp only [hab, if_false, Option.bind_eq_some] at h
        obtain ⟨temp1, -, ⟨⟨t2, l2, r2, m2⟩, w2⟩, hrec, heq⟩ := h
        simp only [Option.pure_def, Option.some.injEq, Prod.mk.injEq] at heq
        obtain ⟨⟨-, rfl, rfl, rfl⟩, rfl⟩ := heq
        obtain ⟨i1, i2, i3, i4, i5, i6⟩ := ih temp1 leftIndex (rightIndex + 1) (mergeIndex + 1)
          t2 l2 r2 m2 w2 hl (by omega) hrec
        have e : ((l2 - leftIndex) + (r2 - rightIndex)).toNat
            = ((l2 - leftIndex) + (r2 - (rightIndex + 1))).toNat + 1 := by omega
        rw [e, indexRange, ← i6]
        exact ⟨i1, i2, by omega, i4, by omega, rfl⟩
    · simp only [hc, if_false, Option.some.injEq, Prod.mk.injEq] at h
      obtain ⟨⟨-, rfl, rfl, rfl⟩, rfl⟩ := h
      have e : ((leftIndex - leftIndex) + (rightIndex - rightIndex)).toNat = 0 := by omega
      rw [e]
      exact ⟨le_rfl, hl, le_rfl, hr, by omega, rfl⟩

/-- `mergeByWrites` is `mergeBy` with a log: forgetting the log gives the
result of `mergeBy`. -/
theorem mergeByWrites_erase (key : α → Int) (arr temp : List α) (left mid right : Int) :
    (mergeByWrites key arr temp left mid right).map Prod.fst
      = mergeBy key arr temp left mid right := by
  unfold mergeByWrites mergeBy mergeLoop copyRemaining copyLoop
  rw [← mergeLoopFuelW_erase]
  cases mergeLoopFuelW key arr mid right
      ((mid + 1 - left).toNat + (right + 1 - (mid + 1)).toNat) temp left (mid + 1) left with
  | none => rfl
  | some x =>
    obtain ⟨⟨t1, l1, r1, m1⟩, w1⟩ := x
    simp only [Option.bind_eq_bind, Option.some_bind, Option.map_some']
    rw [← copyLoopFuelW_erase]
    cases copyLoopFuelW arr mid (mid + 1 - l1).toNat t1 l1 m1 with
    | none => rfl
    | some y =>
      obtain ⟨⟨t2, m2⟩, w2⟩ := y
      simp only [Option.some_bind, Option.map_some']
      rw [← copyLoopFuelW_erase]
      cases copyLoopFuelW arr right (right + 1 - r1).toNat t2 r1 m2 with
      | none => rfl
      | some z =>
        obtain ⟨⟨t3, m3⟩, w3⟩ := z
        simp only [Option.some_bind, Option.map_some', Option.pure_def]
        cases copyBack t3 right arr left <;> rfl

/-- The three loops of `merge` that precede the copy-back write the cells
`left, left + 1, ..., right` of the scratch array, in this order. -/
theorem mergeByWrites_log (key : α → Int) (arr temp : List α) (left mid right : Int)
    (res : List α × List α) (writes : List Int) (hlm : left ≤ mid + 1) (hmr : mid ≤ right)
    (h : mergeByWrites key arr temp left mid right = some (res, writes)) :
    writes = indexRange left (right + 1 - left).toNat := by
  unfold mergeByWrites at h
  simp only [Option.bind_eq_bind, Option.bind_eq_some] at h
  obtain ⟨⟨⟨t1, l1, r1, m1⟩, w1⟩, h1, ⟨⟨t2, m2⟩, w2⟩, h2, ⟨⟨t3, m3⟩, w3⟩, h3, arr1, -, heq⟩ := h
  simp only [Option.pure_def, Option.some.injEq, Prod.mk.injEq] at heq
  obtain ⟨-, rfl⟩ := heq
  obtain ⟨a1, a2, a3, a4, a5, a6⟩ := mergeLoopFuelW_writes key arr mid right _ temp left
    (mid + 1) left t1 l1 r1 m1 w1 hlm (by omega) h1
  obtain ⟨b1, b2⟩ := copyLoopFuelW_writes arr mid _ t1 l1 m1 t2 m2 w2 a2 h2
  obtain ⟨c1, c2⟩ := copyLoopFuelW_writes arr right _ t2 r1 m2 t3 m3 w3 a4 h3
  have e1 : m1 = left + ((((l1 - left) + (r1 - (mid + 1))).toNat : Nat) : Int) := by omega
  have e2 : m2 = left + (((((l1 - left) + (r1 - (mid + 1))).toNat
      + (mid + 1 - l1).toNat : Nat)) : Int) := by push_cast; omega
  rw [a6, b2, c2, e1, indexRange_append, e2, indexRange_append]
  congr 1
  omega

/-- An array that agrees with another before `left` and after `right` reads the
same outside `left .. right`. -/
theorem readAt_eq_of_frame (t1 t : List α) (left right : Int) (h0 : 0 ≤ left)
    (htake : t1.take left.toNat = t.take left.toNat)
    (hdrop : t1.drop (right + 1).toNat = t.drop (right + 1).toNat)
    (j : Int) (hj : j < left ∨ right < j) : readAt t1 j = readAt t j := by
  unfold readAt
  by_cases hj0 : 0 ≤ j
  · simp only [hj0, if_true]
    rcases hj with hj | hj
    · have hlt : j.toNat < left.toNat := by omega
      have e1 : (t1.take left.toNat)[j.toNat]? = t1[j.toNat]? := by
        rw [List.getElem?_take, if_pos hlt]
      have e2 : (t.take left.toNat)[j.toNat]? = t[j.toNat]? := by
        rw [List.getElem?_take, if_pos hlt]
      rw [← e1, ← e2, htake]
    · have e : j.toNat = (right + 1).toNat + (j.toNat - (right + 1).toNat) := by omega
      rw [e, ← List.getElem?_drop, ← List.getElem?_drop, hdrop]
  · simp [hj0]

/-- Frame of `merge` on the scratch buffer.  For arrays of the same length and
bounds `0 <= left <= mid < right <= n - 1`, `merge` returns, `temp[j]` is
unchanged for every `j < left` and every `j > right`, and the three loops that
precede the copy-back write every index of `left .. right` exactly once and no
other index. -/
theorem merge_scratch_frame (arr temp : List Int) (left mid right : Int)
    (hlen : temp.length = arr.length) (h0 : 0 ≤ left) (hlm : left ≤ mid) (hmr : mid < right)
    (hr : right < arr.length) :
    ∃ arr1 temp1 writes,
      mergeByWrites id arr temp left mid right = some ((arr1, temp1), writes) ∧
      merge arr temp left mid right = some (arr1, temp1) ∧
      temp1.length = temp.length ∧
      (∀ j : Int, j < left ∨ right < j → readAt temp1 j = readAt temp j) ∧
      (∀ j : Int, writes.count j = if left ≤ j ∧ j ≤ right then 1 else 0) := by
  have h1 := mergeBy_eq id arr temp left mid right h0 hlm hmr hr (by omega)
  have her := mergeByWrites_erase id arr temp left mid right
  rw [h1] at her
  obtain ⟨⟨res, writes⟩, hw, hres⟩ := Option.map_eq_some'.mp her
  simp only at hres
  subst hres
  have hlog := mergeByWrites_log id arr temp left mid right _ writes (by omega) (by omega) hw
  obtain ⟨_, _, hXL⟩ := split_at_range arr left mid h0 (by omega) (by omega)
  obtain ⟨_, _, hXR⟩ := split_at_range arr (mid + 1) right (by omega) (by omega) hr
  have hMlen : (List.merge (slice arr left mid) (slice arr (mid + 1) right) (leBy id)).length
      = (right + 1 - left).toNat := by
    rw [List.length_merge]; omega
  have hTlen : (temp.take left.toNat).length = left.toNat := by
    rw [List.length_take]; omega
  refine ⟨_, _, writes, hw, h1, ?_, ?_, ?_⟩
  · simp only [List.length_append, hMlen, hTlen, List.length_drop]
    omega
  · intro j hj
    refine readAt_eq_of_frame _ temp left right h0 ?_ ?_ j hj
    · rw [List.append_assoc, List.take_left' hTlen]
    · rw [List.drop_left' (by rw [List.length_append, hMlen, hTlen]; omega)]
  · intro j
    rw [hlog, count_indexRange]
    by_cases hc : left ≤ j ∧ j ≤ right
    · rw [if_pos hc, if_pos (by omega)]
    · rw [if_neg hc, if_neg (by omega)]

/-- An instance of `merge_scratch_frame`: merging the halves of the range `1 ..
3` of `[9, 4, 7, 6, 1]` with the scratch array `[8, 8, 8, 8, 8]` writes the
scratch cells 1, 2, 3. -/
theorem merge_scratch_frame_witness :
    mergeByWrites id [9, 4, 7, 6, 1] [8, 8, 8, 8, 8] 1 2 3
      = some (([9, 4, 6, 7, 1], [8, 4, 6, 7, 8]), [1, 2, 3]) ∧
    (∃ arr1 temp1 writes,
      mergeByWrites id [9, 4, 7, 6, 1] [8, 8, 8, 8, 8] 1 2 3 = some ((arr1, temp1), writes) ∧
      merge [9, 4, 7, 6, 1] [8, 8, 8, 8, 8] 1 2 3 = some (arr1, temp1) ∧
      temp1.length = ([8, 8, 8, 8, 8] : List Int).length ∧
      (∀ j : Int, j < 1 ∨ 3 < j → readAt temp1 j = readAt [8, 8, 8, 8, 8] j) ∧
      (∀ j : Int, writes.count j = if 1 ≤ j ∧ j ≤ 3 then 1 else 0)) :=
  ⟨by decide,
    merge_scratch_frame [9, 4, 7, 6, 1] [8, 8, 8, 8, 8] 1 2 3 rfl (by decide) (by decide)
      (by decide) (by decide)⟩

/-- Frame of `mergeSort` on the scratch buffer below the overflow bound.  For
arrays of the same length and bounds inside the array with `right <= 2^30`,
`mergeSort(arr, temp, left, right)` returns and leaves `temp[j]` unchanged for
`j < left` and `j > right`. -/
theorem mergeSort_scratch_frame (fuel : Nat) (arr temp : List Int) (left right : Int)
    (hlen : temp.length = arr.length) (h0 : 0 ≤ left) (hlr : left ≤ right + 1)
    (hr : right < arr.length) (hf : right - left ≤ fuel) (hb : right ≤ 1073741824) :
    ∃ arr2 temp2,
      mergeSort fuel arr temp left right = some (arr2, temp2) ∧
      temp2.length = temp.length ∧
      (∀ j : Int, j < left ∨ right < j → readAt temp2 j = readAt temp j) := by
  obtain ⟨temp2, h2, hl2, ht2, hd2⟩ :=
    mergeSortBy_eq id fuel arr temp left right h0 hlr hr (by omega) hf hb
  exact ⟨_, temp2, h2, hl2, readAt_eq_of_frame temp2 temp left right h0 ht2 hd2⟩

/-- An instance of `mergeSort_scratch_frame`: sorting the range `1 .. 3` of `[9,
4, 7, 6, 1]` leaves the scratch cells 0 and 4. -/
theorem mergeSort_scratch_frame_witness :
    ∃ arr2 temp2,
      mergeSort 2 [9, 4, 7, 6, 1] [8, 8, 8, 8, 8] 1 3 = some (arr2, temp2) ∧
      temp2.length = ([8, 8, 8, 8, 8] : List Int).length ∧
      (∀ j : Int, j < 1 ∨ 3 < j → readAt temp2 j = readAt [8, 8, 8, 8, 8] j) :=
  mergeSort_scratch_frame 2 [9, 4, 7, 6, 1] [8, 8, 8, 8, 8] 1 3 rfl (by decide) (by decide)
    (by decide) (by decide) (by decide)


/-! ## `mergeSort` above the overflow bound

An array of `2^30 + 2` cells has the bounds `left = 2^30`, `right = 2^30 + 1`
inside it, and the driver's call `mergeSort(arr, temp, 0, n - 1)` reaches them
after 29 right-hand recursive calls.  There `left + right` exceeds `2^31 - 1`,
the sum of line 37 wraps, `mid` is negative, the second recursive call is on a
range with a negative `left`, and the recursion never comes back.  The theorems
of this part evaluate the program on such arrays: the calls have no result, at
any recursion depth. -/

/-- The `int` program above the bound: a call with `0 <= left < right` and
`2^30 < right <= 2^31 - 2` has no result, on any arrays and at any recursion
depth. -/
theorem mergeSort_overflow (fuel : Nat) (arr temp : List Int) (left right : Int)
    (h0 : 0 ≤ left) (hlt : left < right) (hb : 1073741824 < right) (hr : right ≤ 2147483646) :
    mergeSort fuel arr temp left right = none :=
  mergeSortBy_overflow id fuel arr temp left right h0 hlt hb hr

/-- Above the bound the program writes nothing after the sort: on an input of
`n` integers with `2^30 + 2 <= n <= 2^31 - 1` the driver's call has no result,
at any recursion depth. -/
theorem mainOutput_overflow (fuel : Nat) (arr temp : List Int)
    (h1 : 1073741826 ≤ arr.length) (h2 : arr.length ≤ 2147483647) :
    mainOutput fuel arr temp = none := by
  unfold mainOutput
  rw [mergeSort_overflow fuel arr temp 0 _ le_rfl (by omega) (by omega) (by omega)]
  rfl

/-- A call without a result at any depth makes no run to log. -/
theorem mergeSortTrace_none (key : α → Int) (fuel : Nat) (arr temp : List α) (left right : Int)
    (h : mergeSortBy key fuel arr temp left right = none) :
    mergeSortTrace key fuel arr temp left right = none := by
  have her := mergeSortTrace_erase key fuel arr temp left right
  rw [h] at her
  exact Option.map_eq_none'.mp her

/-- The length of the indexed input. -/
theorem length_withIndex (s : List Int) : (withIndex s).length = s.length := by
  rw [withIndex, List.length_zip, List.length_range, Nat.min_self]

/-- C1 (sortedness), the code at a failing input: on an array of `2^30 + 2`
zeros, with a scratch array of the same length, the bounds `left = 0` and
`right = n - 1 = 2^30 + 1` are inside the array, yet the driver's call
`mergeSort(arr, temp, 0, n - 1)` has no result at any recursion depth, so there
is no array after the call whose range is in non-decreasing order. -/
theorem sortedness_overflow :
    (List.replicate 1073741826 (0 : Int)).length = 1073741826 ∧
    (∀ fuel : Nat,
      mergeSort fuel (List.replicate 1073741826 0) (List.replicate 1073741826 0)
        0 1073741825 = none) ∧
    ¬ ∃ (fuel : Nat) (arr1 temp1 : List Int),
      mergeSort fuel (List.replicate 1073741826 0) (List.replicate 1073741826 0)
        0 1073741825 = some (arr1, temp1) ∧
      SortedRange arr1 0 1073741825 ∧ arr1.Pairwise (fun a b => a ≤ b) := by
  have hnone : ∀ fuel : Nat,
      mergeSort fuel (List.replicate 1073741826 0) (List.replicate 1073741826 0)
        0 1073741825 = none :=
    fun fuel => mergeSort_overflow fuel _ _ 0 1073741825 (by decide) (by decide) (by decide)
      (by decide)
  refine ⟨List.length_replicate _ _, hnone, ?_⟩
  rintro ⟨fuel, arr1, temp1, h, -⟩
  rw [hnone fuel] at h
  cases h

/-- C2 (permutation preservation), the code at a failing input: on an array of
`2^30 + 2` zeros the call `mergeSort(arr, temp, 2^30, 2^30 + 1)`, whose bounds are
inside the array, and the driver's call `mergeSort(arr, temp, 0, 2^30 + 1)` have
no result at any recursion depth, so there is no range and no array after the
call to be a permutation of the one before. -/
theorem permutation_overflow :
    (List.replicate 1073741826 (0 : Int)).length = 1073741826 ∧
    (∀ fuel : Nat,
      mergeSort fuel (List.replicate 1073741826 0) (List.replicate 1073741826 0)
        1073741824 1073741825 = none) ∧
    (¬ ∃ (fuel : Nat) (arr1 temp1 : List Int),
      mergeSort fuel (List.replicate 1073741826 0) (List.replicate 1073741826 0)
        1073741824 1073741825 = some (arr1, temp1) ∧
      (slice arr1 1073741824 1073741825).Perm
        (slice (List.replicate 1073741826 0) 1073741824 1073741825)) ∧
    ¬ ∃ (fuel : Nat) (arr1 temp1 : List Int),
      mergeSort fuel (List.replicate 1073741826 0) (List.replicate 1073741826 0)
        0 1073741825 = some (arr1, temp1) ∧
      arr1.Perm (List.replicate 1073741826 0) := by
  have hnone : ∀ (fuel : Nat) (left : Int), 0 ≤ left → left < 1073741825 →
      mergeSort fuel (List.replicate 1073741826 0) (List.replicate 1073741826 0)
        left 1073741825 = none :=
    fun fuel left h0 hlt =>
      mergeSort_overflow fuel _ _ left 1073741825 h0 hlt (by decide) (by decide)
  refine ⟨List.length_replicate _ _, fun fuel => hnone fuel _ (by decide) (by decide), ?_, ?_⟩
  · rintro ⟨fuel, arr1, temp1, h, -⟩
    rw [hnone fuel _ (by decide) (by decide)] at h
    cases h
  · rintro ⟨fuel, arr1, temp1, h, -⟩
    rw [hnone fuel _ (by decide) (by decide)] at h
    cases h

/-- C4 (stability), the code at a failing input: the `2^30 + 2` pairs
`(0, 0), (0, 1), ...` of the value 0 with its original index, compared by value
only.  The driver's call has no result at any recursion depth, so there is no
output in which the equal values could stand in their input order. -/
theorem stability_overflow :
    (withIndex (List.replicate 1073741826 0)).length = 1073741826 ∧
    (∀ fuel : Nat,
      mergeSortBy Prod.fst fuel (withIndex (List.replicate 1073741826 0))
        (withIndex (List.replicate 1073741826 0)) 0 1073741825 = none) ∧
    ¬ ∃ (fuel : Nat) (out temp1 : List (Int × Nat)),
      mergeSortBy Prod.fst fuel (withIndex (List.replicate 1073741826 0))
        (withIndex (List.replicate 1073741826 0)) 0 1073741825 = some (out, temp1) ∧
      out.Pairwise (fun p q => p.1 = q.1 → p.2 < q.2) := by
  have hnone : ∀ fuel : Nat,
      mergeSortBy Prod.fst fuel (withIndex (List.replicate 1073741826 0))
        (withIndex (List.replicate 1073741826 0)) 0 1073741825 = none :=
    fun fuel => mergeSortBy_overflow Prod.fst fuel _ _ 0 1073741825 (by decide) (by decide)
      (by decide) (by decide)
  refine ⟨(length_withIndex _).trans (List.length_replicate _ _), hnone, ?_⟩
  rintro ⟨fuel, out, temp1, h, -⟩
  rw [hnone fuel] at h
  cases h

/-- C5 (idempotence), the code at a failing input: for `S` an array of
`2^30 + 2` zeros the driver's call has no result at any recursion depth, so
there is no `sort(S)` to sort again. -/
theorem idempotence_overflow :
    (List.replicate 1073741826 (0 : Int)).length = 1073741826 ∧
    (∀ fuel : Nat,
      mergeSort fuel (List.replicate 1073741826 0) (List.replicate 1073741826 0)
        0 1073741825 = none) ∧
    ¬ ∃ (fuel fuel2 : Nat) (s1 t1 t2 : List Int),
      mergeSort fuel (List.replicate 1073741826 0) (List.replicate 1073741826 0)
        0 1073741825 = some (s1, t1) ∧
      mergeSort fuel2 s1 (List.replicate 1073741826 0) 0 ((s1.length : Int) - 1)
        = some (s1, t2) := by
  have hnone : ∀ fuel : Nat,
      mergeSort fuel (List.replicate 1073741826 0) (List.replicate 1073741826 0)
        0 1073741825 = none :=
    fun fuel => mergeSort_overflow fuel _ _ 0 1073741825 (by decide) (by decide) (by decide)
      (by decide)
  refine ⟨List.length_replicate _ _, hnone, ?_⟩
  rintro ⟨fuel, fuel2, s1, t1, t2, h, -⟩
  rw [hnone fuel] at h
  cases h

/-- C8 (the sort cannot fail on a valid sequence), the code at a failing input:
a non-empty array of `n = 2^30 + 2` zeros.  The driver's call has no result and
no log of calls at any recursion depth.  Its 29th right-hand recursive call is
`mergeSort(arr, temp, 2^30, 2^30 + 1)`, with bounds inside `0 .. n - 1`; that
call computes `mid = -1073741823` and makes the recursive calls
`mergeSort(arr, temp, 2^30, mid)` and `mergeSort(arr, temp, mid + 1, 2^30 + 1)`,
neither with bounds inside `0 .. n - 1`. -/
theorem safety_overflow :
    List.replicate 1073741826 (0 : Int) ≠ [] ∧
    (List.replicate 1073741826 (0 : Int)).length = 1073741826 ∧
    (∀ fuel : Nat,
      mergeSortTrace id fuel (List.replicate 1073741826 (0 : Int)) (List.replicate 1073741826 0)
        0 1073741825 = none) ∧
    (∀ fuel : Nat,
      mergeSort fuel (List.replicate 1073741826 0) (List.replicate 1073741826 0)
        0 1073741825 = none) ∧
    Nat.iterate (fun left : Int => midpoint32 left 1073741825 + 1) 29 0 = 1073741824 ∧
    Call.within 0 1073741825 (Call.sort 1073741824 1073741825) ∧
    midpoint32 1073741824 1073741825 = -1073741823 ∧
    (∀ (fuel : Nat) (arr temp : List Int),
      mergeSort (fuel + 1) arr temp 1073741824 1073741825
        = (mergeSort fuel arr temp 1073741824 (-1073741823)).bind fun r1 =>
            (mergeSort fuel r1.1 r1.2 (-1073741822) 1073741825).bind fun r2 =>
              merge r2.1 r2.2 1073741824 (-1073741823) 1073741825) ∧
    ¬ Call.within 0 1073741825 (Call.sort 1073741824 (-1073741823)) ∧
    ¬ Call.within 0 1073741825 (Call.sort (-1073741822) 1073741825) := by
  have hnone : ∀ fuel : Nat,
      mergeSortBy id fuel (List.replicate 1073741826 (0 : Int)) (List.replicate 1073741826 0)
        0 1073741825 = none :=
    fun fuel => mergeSortBy_overflow id fuel _ _ 0 1073741825 (by decide) (by decide)
      (by decide) (by decide)
  refine ⟨List.ne_nil_of_length_pos ?_, List.length_replicate _ _,
    fun fuel => mergeSortTrace_none id fuel _ _ _ _ (hnone fuel), hnone, by decide!, ?_,
    by decide, ?_, ?_, ?_⟩
  · rw [List.length_replicate]
    decide
  · show (0 : Int) ≤ 1073741824 ∧ (1073741824 : Int) ≤ 1073741825 ∧
      (1073741825 : Int) ≤ 1073741825
    decide
  · intro fuel arr temp
    have hstep := mergeSortBy_step id fuel arr temp 1073741824 1073741825 (by decide)
    have hm : midpoint32 1073741824 1073741825 = -1073741823 := by decide
    rw [hm] at hstep
    exact hstep
  · show ¬ ((0 : Int) ≤ 1073741824 ∧ (1073741824 : Int) ≤ -1073741823 ∧
      (-1073741823 : Int) ≤ 1073741825)
    decide
  · show ¬ ((0 : Int) ≤ -1073741822 ∧ (-1073741822 : Int) ≤ 1073741825 ∧
      (1073741825 : Int) ≤ 1073741825)
    decide

/-- C11 (already-sorted input is a fixed point), the code at a failing input:
the sequence of `2^30 + 2` zeros is in non-decreasing order, and the driver's
call started from it has no result at any recursion depth, so the array
contents after the call are not the sequence. -/
theorem sorted_fixed_overflow :
    (List.replicate 1073741826 (0 : Int)).length = 1073741826 ∧
    (List.replicate 1073741826 (0 : Int)).Pairwise (fun a b => a ≤ b) ∧
    (∀ fuel : Nat,
      mergeSort fuel (List.replicate 1073741826 0) (List.replicate 1073741826 0)
        0 1073741825 = none) ∧
    ¬ ∃ (fuel : Nat) (t1 : List Int),
      mergeSort fuel (List.replicate 1073741826 0) (List.replicate 1073741826 0)
        0 1073741825 = some (List.replicate 1073741826 0, t1) := by
  have hnone : ∀ fuel : Nat,
      mergeSort fuel (List.replicate 1073741826 0) (List.replicate 1073741826 0)
        0 1073741825 = none :=
    fun fuel => mergeSort_overflow fuel _ _ 0 1073741825 (by decide) (by decide) (by decide)
      (by decide)
  refine ⟨List.length_replicate _ _, List.pairwise_replicate.mpr (Or.inr le_rfl), hnone, ?_⟩
  rintro ⟨fuel, t1, h⟩
  rw [hnone fuel] at h
  cases h

/-- C12 (reverse-sorted input is reversed), the code at a failing input: the
sequence of `2^30 + 1` zeros followed by `-1` is in non-increasing order, and
the driver's call started from it has no result at any recursion depth, so the
array contents after the call are not its reversal. -/
theorem reverse_sorted_overflow :
    (List.replicate 1073741825 (0 : Int) ++ [-1]).length = 1073741826 ∧
    (List.replicate 1073741825 (0 : Int) ++ [-1]).Pairwise (fun a b => b ≤ a) ∧
    (∀ fuel : Nat,
      mergeSort fuel (List.replicate 1073741825 0 ++ [-1]) (List.replicate 1073741825 0 ++ [-1])
        0 1073741825 = none) ∧
    ¬ ∃ (fuel : Nat) (t1 : List Int),
      mergeSort fuel (List.replicate 1073741825 0 ++ [-1]) (List.replicate 1073741825 0 ++ [-1])
        0 1073741825 = some ((List.replicate 1073741825 0 ++ [-1]).reverse, t1) := by
  have hnone : ∀ fuel : Nat,
      mergeSort fuel (List.replicate 1073741825 0 ++ [-1]) (List.replicate 1073741825 0 ++ [-1])
        0 1073741825 = none :=
    fun fuel => mergeSort_overflow fuel _ _ 0 1073741825 (by decide) (by decide) (by decide)
      (by decide)
  refine ⟨?_, ?_, hnone, ?_⟩
  · rw [List.length_append, List.length_replicate, List.length_singleton]
  · rw [List.pairwise_append]
    refine ⟨List.pairwise_replicate.mpr (Or.inr le_rfl), List.pairwise_singleton _ _, ?_⟩
    intro a ha b hb
    rw [List.eq_of_mem_replicate ha, List.mem_singleton.mp hb]
    decide
  · rintro ⟨fuel, t1, h⟩
    rw [hnone fuel] at h
    cases h

/-- C13 (range partition), the code at a failing input: the bounds
`left = 2^30`, `right = 2^30 + 1` are inside an array of `2^30 + 2` cells and
`0 <= left < right`, but the `mid` of line 37 is `-1073741823`, which is not
`floor((left + right) / 2) = 2^30` and not at least `left`; of the two cells of
the range, `left` is not in the first child range `left .. mid`, which is empty,
and the second child range `mid + 1 .. right` begins below `left`. -/
theorem partition_overflow :
    (List.replicate 1073741826 (0 : Int)).length = 1073741826 ∧
    (0 : Int) ≤ 1073741824 ∧ (1073741824 : Int) < 1073741825 ∧
    (1073741825 : Int) < 1073741826 ∧
    midpoint32 1073741824 1073741825 = -1073741823 ∧
    Int.fdiv (1073741824 + 1073741825) 2 = 1073741824 ∧
    midpoint32 1073741824 1073741825 ≠ Int.fdiv (1073741824 + 1073741825) 2 ∧
    ¬ (1073741824 ≤ midpoint32 1073741824 1073741825) ∧
    ¬ ((1073741824 : Int) ≤ 1073741824 ∧ 1073741824 ≤ midpoint32 1073741824 1073741825) ∧
    midpoint32 1073741824 1073741825 + 1 < 1073741824 ∧
    (∀ (fuel : Nat) (arr temp : List Int),
      mergeSort (fuel + 1) arr temp 1073741824 1073741825
        = (mergeSort fuel arr temp 1073741824 (-1073741823)).bind fun r1 =>
            (mergeSort fuel r1.1 r1.2 (-1073741822) 1073741825).bind fun r2 =>
              merge r2.1 r2.2 1073741824 (-1073741823) 1073741825) := by
  refine ⟨List.length_replicate _ _, by decide, by decide, by decide, by decide, by decide,
    by decide, by decide, by decide, by decide, ?_⟩
  intro fuel arr temp
  have hstep := mergeSortBy_step id fuel arr temp 1073741824 1073741825 (by decide)
  have hm : midpoint32 1073741824 1073741825 = -1073741823 := by decide
  rw [hm] at hstep
  exact hstep

/-- C14 (termination), the code at a failing input: on an array of `2^30 + 2`
zeros the bounds `left = 2^30`, `right = 2^30 + 1` are inside the array, and the
call `mergeSort(arr, temp, 2^30, 2^30 + 1)` has no result at any recursion depth,
nor has the driver's call, which reaches it.  The second recursive call is on
the range `mid + 1 .. right` of size `2147483647`, not smaller than the size
`1` of its parent, and below it the call on the range
`-1073741822 .. -1073741821` computes `mid = -1073741821` and so calls itself
with the same bounds. -/
theorem termination_overflow :
    (List.replicate 1073741826 (0 : Int)).length = 1073741826 ∧
    (∀ fuel : Nat,
      mergeSort fuel (List.replicate 1073741826 0) (List.replicate 1073741826 0)
        1073741824 1073741825 = none) ∧
    (∀ fuel : Nat,
      mergeSort fuel (List.replicate 1073741826 0) (List.replicate 1073741826 0)
        0 1073741825 = none) ∧
    (¬ ∃ (fuel : Nat) (res : List Int × List Int),
      mergeSort fuel (List.replicate 1073741826 0) (List.replicate 1073741826 0)
        1073741824 1073741825 = some res) ∧
    ¬ ((1073741825 - (midpoint32 1073741824 1073741825 + 1)).toNat
        < ((1073741825 : Int) - 1073741824).toNat) ∧
    (1073741825 - (midpoint32 1073741824 1073741825 + 1)).toNat = 2147483647 ∧
    midpoint32 (-1073741822) (-1073741821) = -1073741821 := by
  have hnone : ∀ (fuel : Nat) (left : Int), 0 ≤ left → left < 1073741825 →
      mergeSort fuel (List.replicate 1073741826 0) (List.replicate 1073741826 0)
        left 1073741825 = none :=
    fun fuel left h0 hlt =>
      mergeSort_overflow fuel _ _ left 1073741825 h0 hlt (by decide) (by decide)
  refine ⟨List.length_replicate _ _, fun fuel => hnone fuel _ (by decide) (by decide),
    fun fuel => hnone fuel _ (by decide) (by decide), ?_, by decide, by decide, by decide⟩
  rintro ⟨fuel, res, h⟩
  rw [hnone fuel _ (by decide) (by decide)] at h
  cases h

/-- C19 (the result depends only on the multiset of inputs), the code at a
failing input: the sequence of `2^30 + 1` zeros followed by a one and the
sequence of a one followed by `2^30 + 1` zeros have the same length `2^30 + 2`
and are permutations of each other; the driver's call has no result at any
recursion depth from either, so there are no array contents after the two calls
to be equal. -/
theorem multiset_invariant_overflow :
    (List.replicate 1073741825 (0 : Int) ++ [1]).length = 1073741826 ∧
    ([1] ++ List.replicate 1073741825 (0 : Int)).length = 1073741826 ∧
    (List.replicate 1073741825 (0 : Int) ++ [1]).Perm ([1] ++ List.replicate 1073741825 0) ∧
    (∀ fuel : Nat,
      mergeSort fuel (List.replicate 1073741825 0 ++ [1]) (List.replicate 1073741825 0 ++ [1])
        0 1073741825 = none) ∧
    (∀ fuel : Nat,
      mergeSort fuel ([1] ++ List.replicate 1073741825 0) ([1] ++ List.replicate 1073741825 0)
        0 1073741825 = none) ∧
    ¬ ∃ (fuel fuel2 : Nat) (out t1 t2 : List Int),
      mergeSort fuel (List.replicate 1073741825 0 ++ [1]) (List.replicate 1073741825 0 ++ [1])
        0 1073741825 = some (out, t1) ∧
      mergeSort fuel2 ([1] ++ List.replicate 1073741825 0) ([1] ++ List.replicate 1073741825 0)
        0 1073741825 = some (out, t2) := by
  have hnone : ∀ (fuel : Nat) (arr : List Int), mergeSort fuel arr arr 0 1073741825 = none :=
    fun fuel arr => mergeSort_overflow fuel arr arr 0 1073741825 (by decide) (by decide)
      (by decide) (by decide)
  refine ⟨?_, ?_, List.perm_append_comm, fun fuel => hnone fuel _, fun fuel => hnone fuel _, ?_⟩
  · rw [List.length_append, List.length_replicate, List.length_singleton]
  · rw [List.length_append, List.length_replicate, List.length_singleton]
  · rintro ⟨fuel, fuel2, out, t1, t2, h, -⟩
    rw [hnone fuel] at h
    cases h

end MergeSortC
